import Mathlib

/-!
Tick-driven cooperative scheduler (`src/scheduler.c`).

A shallow embedding of the task table `sch_tasks_g`, of the registration API
(`sch_add_task`, `sch_delete_task`, `sch_init_t1`), of the timer interrupt
handler `ISR(TIMER1_COMPA_vect)` and of the dispatcher `sch_dispatch_tasks`,
followed by theorems about them.

Conventions of the embedding.

* A function pointer is its address, a natural number; the null pointer is `0`.
* `scheduler.h` (the `Task` type and `SCH_MAX_TASKS`) is not part of the
  sources.  The capacity `SCH_MAX_TASKS` is the length of the table, the
  `unsigned int` fields `delay` and `period` are 16 bits wide (AVR), and the
  width of `runme` is a parameter `R` (the number of values of its type).
* The code indexes `sch_tasks_g` without bounds checks.  The memory image
  therefore consists of the table itself and of the storage that follows it,
  seen through the layout of `Task`: this is where the unchecked writes of
  `sch_delete_task` land.  A call of `sch_add_task` whose scan reads outside the
  array has undefined behaviour and no result.
-/

namespace Scheduler

/-- One element of `sch_tasks_g`: the callback address (`0` when the slot is
empty), the ticks left until the next run, the interval between runs (`0` for
a one-shot task) and the number of pending runs. -/
structure Task where
  pTask : Nat
  delay : Nat
  period : Nat
  runme : Nat
deriving DecidableEq

/-- Memory image of the array `sch_tasks_g`: `tab` holds the slots
`sch_tasks_g[0 .. SCH_MAX_TASKS-1]`, and `ext k` is what the expression
`sch_tasks_g[SCH_MAX_TASKS + k]` denotes, the storage after the array. -/
structure Sched where
  tab : List Task
  ext : Nat → Task

/-- Capacity of the table, the constant `SCH_MAX_TASKS` of `scheduler.h`. -/
def SCH_MAX_TASKS (s : Sched) : Nat := s.tab.length

/-- Number of values of `unsigned int` on the AVR target (16 bits): the type of
`DELAY`, `PERIOD` and of the fields `delay` and `period`. -/
def UINT_MOD : Nat := 65536

/-- Number of values of `unsigned char`, the type of every index variable. -/
def UCHAR_MOD : Nat := 256

/-- The read `sch_tasks_g[index]`, unchecked as in C. -/
def rd (s : Sched) (index : Nat) : Task :=
  match s.tab[index]? with
  | some t => t
  | none => s.ext (index - s.tab.length)

/-- The write `sch_tasks_g[index] = t`, unchecked as in C: an index past the
table writes into the storage that follows it. -/
def wr (s : Sched) (index : Nat) (t : Task) : Sched :=
  if index < s.tab.length then
    ⟨s.tab.set index t, s.ext⟩
  else
    ⟨s.tab, fun k => if k = index - s.tab.length then t else s.ext k⟩

/-- The loop `for (index = i; index < i + n; index++) body`, by its trip
count.  With `unsigned char index` this is the C loop as long as
`SCH_MAX_TASKS ≤ 255`. -/
def forLoop {σ : Type} (body : Nat → σ → σ) : Nat → Nat → σ → σ
  | 0, _, st => st
  | n + 1, i, st => forLoop body n (i + 1) (body i st)

/-- Function `sch_delete_task` (scheduler.c:125-136): four unchecked field
writes; the return code is always `0`. -/
def sch_delete_task (TASK_INDEX : Nat) (s : Sched) : Nat × Sched :=
  let return_code := 0
  let s1 := wr s TASK_INDEX ⟨0, (rd s TASK_INDEX).delay, (rd s TASK_INDEX).period, (rd s TASK_INDEX).runme⟩
  let s2 := wr s1 TASK_INDEX ⟨(rd s1 TASK_INDEX).pTask, 0, (rd s1 TASK_INDEX).period, (rd s1 TASK_INDEX).runme⟩
  let s3 := wr s2 TASK_INDEX ⟨(rd s2 TASK_INDEX).pTask, (rd s2 TASK_INDEX).delay, 0, (rd s2 TASK_INDEX).runme⟩
  let s4 := wr s3 TASK_INDEX ⟨(rd s3 TASK_INDEX).pTask, (rd s3 TASK_INDEX).delay, (rd s3 TASK_INDEX).period, 0⟩
  (return_code, s4)

/-- The scan `while ((sch_tasks_g[index].pTask != 0) && (index < SCH_MAX_TASKS)) index++`
of `sch_add_task` (scheduler.c:89-92) with the read of the slot unchecked, as
the processor performs it: past the table it yields whatever is stored there.
The slot is read before the bound is tested.  `index` is an `unsigned char`,
so `index++` wraps at 256.  The result is the value of `index` when the loop
exits, `none` when the fuel runs out. -/
def addScan (s : Sched) : Nat → Nat → Option Nat
  | 0, _ => none
  | fuel + 1, index =>
    if (rd s index).pTask ≠ 0 ∧ index < SCH_MAX_TASKS s then
      addScan s fuel ((index + 1) % UCHAR_MOD)
    else
      some index

/-- How the scan of `sch_add_task` ends when every read of `sch_tasks_g` is
bounds-checked. -/
inductive ScanOutcome where
  /-- The loop is left with this value of `index`. -/
  | exit (index : Nat)
  /-- The loop condition reads `sch_tasks_g[index]` with `index` not in the table. -/
  | outOfBounds (index : Nat)
  /-- The fuel ran out. -/
  | timeout
deriving DecidableEq

/-- The scan of `sch_add_task` (scheduler.c:89-92) as `addScan`, with the read
`sch_tasks_g[index].pTask` of the loop condition bounds-checked: the read comes
first, the test `index < SCH_MAX_TASKS` second, as the operands of `&&` stand.
A read outside the array is undefined behaviour in C. -/
def addScanChecked (s : Sched) : Nat → Nat → ScanOutcome
  | 0, _ => ScanOutcome.timeout
  | fuel + 1, index =>
    match s.tab[index]? with
    | none => ScanOutcome.outOfBounds index
    | some t =>
      if t.pTask ≠ 0 ∧ index < SCH_MAX_TASKS s then
        addScanChecked s fuel ((index + 1) % UCHAR_MOD)
      else
        ScanOutcome.exit index

/-- Function `sch_add_task` (scheduler.c:84-109).  The scan is followed with its
reads bounds-checked: when it reads `sch_tasks_g[index]` outside the array the
behaviour of the call is undefined and there is no result (`none`), as when
the scan does not end.  The scan only changes `index`, which has 256 values: a
scan that has not stopped after 256 tests repeats forever, so fuel 256 loses
no terminating run.  The result is the returned `unsigned char` and the memory
afterwards. -/
def sch_add_task (pFunction DELAY PERIOD : Nat) (s : Sched) : Option (Nat × Sched) :=
  match addScanChecked s 256 0 with
  | ScanOutcome.timeout => none
  | ScanOutcome.outOfBounds _ => none
  | ScanOutcome.exit index =>
    if index = SCH_MAX_TASKS s then
      some (SCH_MAX_TASKS s % UCHAR_MOD, s)
    else
      let s1 := wr s index ⟨pFunction, (rd s index).delay, (rd s index).period, (rd s index).runme⟩
      let s2 := wr s1 index ⟨(rd s1 index).pTask, DELAY, (rd s1 index).period, (rd s1 index).runme⟩
      let s3 := wr s2 index ⟨(rd s2 index).pTask, (rd s2 index).delay, PERIOD, (rd s2 index).runme⟩
      let s4 := wr s3 index ⟨(rd s3 index).pTask, (rd s3 index).delay, (rd s3 index).period, 0⟩
      some (index, s4)

/-- The table part of `sch_init_t1` (scheduler.c:148-155): every slot is
deleted.  The timer registers set afterwards are not part of the model. -/
def sch_init_t1 (s : Sched) : Sched :=
  forLoop (fun i st => (sch_delete_task i st).2) (SCH_MAX_TASKS s) 0 s

/-- Body of the loop of `ISR(TIMER1_COMPA_vect)` (scheduler.c:197-217) for one
`index`.  `R` is the number of values of the type of `runme`. -/
def isrBody (R : Nat) (index : Nat) (s : Sched) : Sched :=
  if (rd s index).pTask ≠ 0 then
    if (rd s index).delay = 0 then
      let s1 := wr s index ⟨(rd s index).pTask, (rd s index).delay, (rd s index).period,
        ((rd s index).runme + 1) % R⟩
      if (rd s1 index).period ≠ 0 then
        let s2 := wr s1 index ⟨(rd s1 index).pTask, (rd s1 index).period, (rd s1 index).period,
          (rd s1 index).runme⟩
        wr s2 index ⟨(rd s2 index).pTask, ((rd s2 index).delay + UINT_MOD - 1) % UINT_MOD,
          (rd s2 index).period, (rd s2 index).runme⟩
      else
        s1
    else
      wr s index ⟨(rd s index).pTask, ((rd s index).delay + UINT_MOD - 1) % UINT_MOD,
        (rd s index).period, (rd s index).runme⟩
  else
    s

/-- The timer interrupt handler `ISR(TIMER1_COMPA_vect)` (scheduler.c:192-219):
one tick. -/
def ISR (R : Nat) (s : Sched) : Sched :=
  forLoop (isrBody R) (SCH_MAX_TASKS s) 0 s

/-- State of a dispatcher pass: the memory and the calls made so far, each as
the pair of the slot index and the address called. -/
abbrev DState := Sched × List (Nat × Nat)

/-- Body of the loop of `sch_dispatch_tasks` (scheduler.c:23-34) for one
`index`.  `call p` is the effect on the scheduler memory of running the
function at address `p`. -/
def dispatchBody (R : Nat) (call : Nat → Sched → Sched) (index : Nat) (st : DState) : DState :=
  if (rd st.1 index).runme > 0 ∧ (rd st.1 index).pTask ≠ 0 then
    let s1 := call (rd st.1 index).pTask st.1
    let log := st.2 ++ [(index, (rd st.1 index).pTask)]
    let s2 := wr s1 index ⟨(rd s1 index).pTask, (rd s1 index).delay, (rd s1 index).period,
      ((rd s1 index).runme + R - 1) % R⟩
    if (rd s2 index).period = 0 then
      ((sch_delete_task index s2).2, log)
    else
      (s2, log)
  else
    st

/-- The dispatcher `sch_dispatch_tasks` (scheduler.c:18-36): one pass over the
table.  The result is the memory afterwards and the calls made, in order. -/
def sch_dispatch_tasks (R : Nat) (call : Nat → Sched → Sched) (s : Sched) : DState :=
  forLoop (dispatchBody R call) (SCH_MAX_TASKS s) 0 (s, [])

/-- Callbacks that leave the scheduler memory alone. -/
def quiet : Nat → Sched → Sched := fun _ s => s

/-- The memory after `n` ticks with no other activity in between. -/
def ticks (R : Nat) : Nat → Sched → Sched
  | 0, s => s
  | n + 1, s => ISR R (ticks R n s)

/-- A test image: the given table followed by zeroed storage. -/
def image (tab : List Task) : Sched := ⟨tab, fun _ => ⟨0, 0, 0, 0⟩⟩

/-- A sequence of `sch_add_task` calls, each given as `(pFunction, DELAY, PERIOD)`,
made one after the other: the values returned, in order, and the memory left. -/
def addSeq : List (Nat × Nat × Nat) → Sched → Option (List Nat × Sched)
  | [], s => some ([], s)
  | c :: cs, s =>
    match sch_add_task c.1 c.2.1 c.2.2 s with
    | none => none
    | some (r, s1) =>
      match addSeq cs s1 with
      | none => none
      | some (rs, s2) => some (r :: rs, s2)

/-- What can happen to the scheduler once the tasks are registered: a timer
interrupt, or a pass of the dispatcher called from the main loop. -/
inductive Step where
  | tick
  | dispatch
deriving DecidableEq

/-- A sequence of interrupts and dispatcher passes, with quiet callbacks: the
memory afterwards and all calls made, in order. -/
def run (R : Nat) : List Step → DState → DState
  | [], st => st
  | Step.tick :: ops, st => run R ops (ISR R st.1, st.2)
  | Step.dispatch :: ops, st =>
    run R ops ((sch_dispatch_tasks R quiet st.1).1, st.2 ++ (sch_dispatch_tasks R quiet st.1).2)

/-- The main loop for `n` ticks when the dispatcher keeps up: `n` rounds of one
interrupt followed by one dispatcher pass, with quiet callbacks. -/
def rounds (R : Nat) : Nat → DState → DState
  | 0, st => st
  | n + 1, st =>
    ((sch_dispatch_tasks R quiet (ISR R (rounds R n st).1)).1,
      (rounds R n st).2 ++ (sch_dispatch_tasks R quiet (ISR R (rounds R n st).1)).2)

/-- Number of calls in a log that were made for slot `i`. -/
def callsOfSlot (i : Nat) (log : List (Nat × Nat)) : Nat :=
  (log.filter (fun c => decide (c.1 = i))).length

/-- Number of calls in a log that went to the function at address `p`. -/
def callsOfFunction (p : Nat) (log : List (Nat × Nat)) : Nat :=
  (log.filter (fun c => decide (c.2 = p))).length

/-- A table of capacity 2 right after `sch_init_t1`. -/
def freshTable : Sched := sch_init_t1 (image [⟨1, 1, 1, 1⟩, ⟨0, 2, 2, 2⟩])

/-- The slot that a call `(pFunction, DELAY, PERIOD)` of `sch_add_task` writes. -/
def slotOf (c : Nat × Nat × Nat) : Task := ⟨c.1, c.2.1, c.2.2, 0⟩

/-- A memory image with one slot in the table and other data after it. -/
def crowded : Sched := ⟨[⟨5, 1, 2, 0⟩], fun _ => ⟨9, 9, 9, 9⟩⟩

/-- A callback that removes the task of slot 0 and registers itself again with
period 5: the effect of `sch_delete_task(0); sch_add_task(self, 0, 5);` run from
the function at address `p`. -/
def reRegister (p : Nat) (s : Sched) : Sched :=
  match sch_add_task p 0 5 (sch_delete_task 0 s).2 with
  | some r => r.2
  | none => s

/-- The empty slot: what `sch_delete_task` leaves behind. -/
def emptyTask : Task := ⟨0, 0, 0, 0⟩

/-- What one tick does to a single slot (the three branches of `isrBody`). -/
def tickSlot (R : Nat) (t : Task) : Task :=
  if t.pTask ≠ 0 then
    if t.delay = 0 then
      if t.period ≠ 0 then
        ⟨t.pTask, (t.period + UINT_MOD - 1) % UINT_MOD, t.period, (t.runme + 1) % R⟩
      else
        ⟨t.pTask, t.delay, t.period, (t.runme + 1) % R⟩
    else
      ⟨t.pTask, (t.delay + UINT_MOD - 1) % UINT_MOD, t.period, t.runme⟩
  else
    t

/-- What one dispatcher pass with quiet callbacks does to a single slot. -/
def dispSlot (R : Nat) (t : Task) : Task :=
  if t.runme > 0 ∧ t.pTask ≠ 0 then
    if t.period = 0 then emptyTask
    else ⟨t.pTask, t.delay, t.period, (t.runme + R - 1) % R⟩
  else
    t

/-- The calls one dispatcher pass makes for the slots `ts`, the first of which
has index `i`. -/
def callsFrom : Nat → List Task → List (Nat × Nat)
  | _, [] => []
  | i, t :: ts =>
    (if t.runme > 0 ∧ t.pTask ≠ 0 then [(i, t.pTask)] else []) ++ callsFrom (i + 1) ts

/-- The data-model invariant for one slot: it is empty, all four fields zero,
or it is active, its callback not null. -/
def slotOk (t : Task) : Prop := t = ⟨0, 0, 0, 0⟩ ∨ t.pTask ≠ 0

instance (t : Task) : Decidable (slotOk t) :=
  inferInstanceAs (Decidable (t = ⟨0, 0, 0, 0⟩ ∨ t.pTask ≠ 0))

/-- Every slot of the table is empty or active. -/
def wellFormed (s : Sched) : Prop := ∀ t, t ∈ s.tab → slotOk t

instance (s : Sched) : Decidable (wellFormed s) :=
  inferInstanceAs (Decidable (∀ t, t ∈ s.tab → slotOk t))

/-- The fields of a slot hold values of their C types: `delay` and `period`
are `unsigned int`, `runme` has `R` values. -/
def inRange (R : Nat) (t : Task) : Prop :=
  t.delay < UINT_MOD ∧ t.period < UINT_MOD ∧ t.runme < R

instance (R : Nat) (t : Task) : Decidable (inRange R t) :=
  inferInstanceAs (Decidable (t.delay < UINT_MOD ∧ t.period < UINT_MOD ∧ t.runme < R))

end Scheduler

/-! The sun-screen control of `src/modules/modules.c` -/

namespace Modules

/-- A value of the C type `float`, as far as a comparison sees it. -/
inductive Reading where
  | nan
  | negInf
  | posInf
  | finite (q : ℚ)

/-- The C comparison `r > threshold` for a finite `threshold`: false for a NaN. -/
def Reading.above (r : Reading) (threshold : ℚ) : Bool :=
  match r with
  | Reading.finite q => decide (threshold < q)
  | Reading.posInf => true
  | Reading.negInf => false
  | Reading.nan => false

/-- A call of one of the two actuator functions of `control.h`, with its argument
(the decimal literal of the source).  The functions themselves are not part of
the sources; they are taken not to write `status`. -/
inductive Call where
  | roll_down (arg : ℚ)
  | roll_up (arg : ℚ)
deriving DecidableEq

/-- Whether the call is a `roll_down`. -/
def Call.isDown : Call → Bool
  | Call.roll_down _ => true
  | Call.roll_up _ => false

/-- Initial value of the global `status` (modules.c:6). -/
def status0 : Int := 1

/-- Function `run_light_scan` (modules.c:28-49), from the value `avg` that
`get_average_light()` returns and the value of `status`: the new `status` and
the actuator calls made. -/
def run_light_scan (avg : Reading) (status : Int) : Int × List Call :=
  if avg.above 50 then
    if status = 1 then (0, [Call.roll_down 2]) else (status, [])
  else
    if status = 0 then (1, [Call.roll_up 2]) else (status, [])

/-- Function `run_temperature_scan` (modules.c:52-72), from the value `avg` that
`get_average_temperature()` returns and the value of `status`. -/
def run_temperature_scan (avg : Reading) (status : Int) : Int × List Call :=
  if avg.above 25 then
    if status = 1 then (0, [Call.roll_down (1 / 10)]) else (status, [])
  else
    if status = 0 then (1, [Call.roll_up (1 / 10)]) else (status, [])

/-- One run of a scan task, with the average it computes. -/
inductive Scan where
  | light (avg : Reading)
  | temperature (avg : Reading)

/-- A sequence of scans: the value of `status` and all actuator calls so far. -/
def scans : List Scan → Int × List Call → Int × List Call
  | [], st => st
  | Scan.light avg :: rest, st =>
    scans rest ((run_light_scan avg st.1).1, st.2 ++ (run_light_scan avg st.1).2)
  | Scan.temperature avg :: rest, st =>
    scans rest ((run_temperature_scan avg st.1).1, st.2 ++ (run_temperature_scan avg st.1).2)

/-- The invariant of the control: `status` is `1` after an even number of
actuator calls and `0` after an odd number, and the calls at even positions
are the `roll_down` ones. -/
def Inv (st : Int × List Call) : Prop :=
  ((st.1 = 1 ∧ st.2.length % 2 = 0) ∨ (st.1 = 0 ∧ st.2.length % 2 = 1)) ∧
    ∀ k c, st.2[k]? = some c → (c.isDown = true ↔ k % 2 = 0)

end Modules

namespace Scheduler

/-! ## Memory access -/

theorem rd_of_getElem? {s : Sched} {i : Nat} {t : Task} (h : s.tab[i]? = some t) :
    rd s i = t := by
  simp [rd, h]

theorem rd_mid (pre rest : List Task) (t : Task) (e : Nat → Task) :
    rd ⟨pre ++ t :: rest, e⟩ pre.length = t := by
  apply rd_of_getElem?
  rw [List.getElem?_append_right (Nat.le_refl _)]
  simp

theorem rd_beyond (s : Sched) (i : Nat) (h : s.tab.length ≤ i) :
    rd s i = s.ext (i - s.tab.length) := by
  simp [rd, List.getElem?_eq_none h]

theorem wr_mid (pre rest : List Task) (t x : Task) (e : Nat → Task) :
    wr ⟨pre ++ t :: rest, e⟩ pre.length x = ⟨pre ++ x :: rest, e⟩ := by
  simp [wr]

theorem split_at (l : List Task) (i : Nat) (t : Task) (h : l[i]? = some t) :
    ∃ pre rest, l = pre ++ t :: rest ∧ pre.length = i := by
  induction l generalizing i with
  | nil => simp at h
  | cons a l ih =>
    cases i with
    | zero =>
      simp at h
      exact ⟨[], l, by simp [h], rfl⟩
    | succ i =>
      simp at h
      obtain ⟨pre, rest, h1, h2⟩ := ih i h
      exact ⟨a :: pre, rest, by simp [h1], by simp [h2]⟩

theorem set_mid (pre rest : List Task) (t x : Task) :
    (pre ++ t :: rest).set pre.length x = pre ++ x :: rest := by
  simp

/-! ## The loop bodies on one slot of the table -/

theorem sch_delete_task_mid (pre rest : List Task) (t : Task) (e : Nat → Task) :
    sch_delete_task pre.length ⟨pre ++ t :: rest, e⟩ = (0, ⟨pre ++ emptyTask :: rest, e⟩) := by
  simp [sch_delete_task, rd_mid, wr_mid, emptyTask]

theorem isrBody_mid (R : Nat) (pre rest : List Task) (t : Task) (e : Nat → Task) :
    isrBody R pre.length ⟨pre ++ t :: rest, e⟩ = ⟨pre ++ tickSlot R t :: rest, e⟩ := by
  unfold isrBody tickSlot
  simp only [rd_mid, wr_mid]
  split_ifs <;> simp_all

theorem dispatchBody_mid (R : Nat) (pre rest : List Task) (t : Task) (e : Nat → Task)
    (log : List (Nat × Nat)) :
    dispatchBody R quiet pre.length (⟨pre ++ t :: rest, e⟩, log) =
      (⟨pre ++ dispSlot R t :: rest, e⟩,
        log ++ (if t.runme > 0 ∧ t.pTask ≠ 0 then [(pre.length, t.pTask)] else [])) := by
  unfold dispatchBody dispSlot quiet
  simp only [rd_mid, wr_mid, sch_delete_task_mid]
  split_ifs <;> simp_all

/-! ## The loops -/

theorem forLoop_map (body : Nat → Sched → Sched) (f : Task → Task)
    (hb : ∀ pre rest t e, body pre.length ⟨pre ++ t :: rest, e⟩ = ⟨pre ++ f t :: rest, e⟩)
    (rest pre : List Task) (e : Nat → Task) :
    forLoop body rest.length pre.length ⟨pre ++ rest, e⟩ = ⟨pre ++ rest.map f, e⟩ := by
  induction rest generalizing pre with
  | nil => simp [forLoop]
  | cons t rest ih =>
    simp only [List.length_cons, forLoop, hb]
    have h := ih (pre ++ [f t])
    simp only [List.length_append, List.length_singleton, List.append_assoc,
      List.singleton_append] at h
    simp [h]

theorem forLoop_calls (R : Nat) (rest pre : List Task) (e : Nat → Task)
    (log : List (Nat × Nat)) :
    forLoop (dispatchBody R quiet) rest.length pre.length (⟨pre ++ rest, e⟩, log) =
      (⟨pre ++ rest.map (dispSlot R), e⟩, log ++ callsFrom pre.length rest) := by
  induction rest generalizing pre log with
  | nil => simp [forLoop, callsFrom]
  | cons t rest ih =>
    simp only [List.length_cons, forLoop, dispatchBody_mid]
    have h := ih (pre ++ [dispSlot R t])
    simp only [List.length_append, List.length_singleton, List.append_assoc,
      List.singleton_append] at h
    simp [h, callsFrom]

theorem ISR_eq (R : Nat) (s : Sched) : ISR R s = ⟨s.tab.map (tickSlot R), s.ext⟩ := by
  have h := forLoop_map (isrBody R) (tickSlot R) (isrBody_mid R) s.tab [] s.ext
  simpa [ISR, SCH_MAX_TASKS] using h

theorem sch_init_t1_eq (s : Sched) :
    sch_init_t1 s = ⟨List.replicate s.tab.length emptyTask, s.ext⟩ := by
  have h := forLoop_map (fun i st => (sch_delete_task i st).2) (fun _ => emptyTask)
    (fun pre rest t e => by simp [sch_delete_task_mid]) s.tab [] s.ext
  simp only [List.nil_append, List.length_nil] at h
  simp only [sch_init_t1, SCH_MAX_TASKS]
  rw [h, List.map_const']

theorem sch_dispatch_tasks_eq (R : Nat) (s : Sched) :
    sch_dispatch_tasks R quiet s = (⟨s.tab.map (dispSlot R), s.ext⟩, callsFrom 0 s.tab) := by
  have h := forLoop_calls R s.tab [] s.ext []
  simpa [sch_dispatch_tasks, SCH_MAX_TASKS] using h

/-! ## Registration -/

theorem rd_set_ne (l : List Task) (e : Nat → Task) (i j : Nat) (x : Task) (h : j ≠ i) :
    rd ⟨l.set i x, e⟩ j = rd ⟨l, e⟩ j := by
  simp [rd, List.getElem?_set_ne (Ne.symm h)]

theorem rd_lt_mem (l : List Task) (e : Nat → Task) (j : Nat) (h : j < l.length) :
    rd ⟨l, e⟩ j ∈ l := by
  have h1 : l[j]? = some l[j] := List.getElem?_eq_getElem h
  rw [rd_of_getElem? h1]
  exact List.getElem_mem h

theorem rd_left (pre rest : List Task) (e : Nat → Task) (j : Nat) (h : j < pre.length) :
    rd ⟨pre ++ rest, e⟩ j ∈ pre := by
  have h1 : (pre ++ rest)[j]? = some pre[j] := by
    rw [List.getElem?_append_left h]
    exact List.getElem?_eq_getElem h
  rw [rd_of_getElem? h1]
  exact List.getElem_mem h

theorem first_free (l : List Task) (h : ∃ t, t ∈ l ∧ t.pTask = 0) :
    ∃ mid t post, l = mid ++ t :: post ∧ t.pTask = 0 ∧ ∀ x, x ∈ mid → x.pTask ≠ 0 := by
  induction l with
  | nil => simp at h
  | cons a l ih =>
    by_cases ha : a.pTask = 0
    · exact ⟨[], a, l, rfl, ha, by simp⟩
    · obtain ⟨t, ht, ht0⟩ := h
      have hmem : t ∈ l := by
        rcases List.mem_cons.mp ht with h1 | h1
        · exact absurd (h1 ▸ ht0) ha
        · exact h1
      obtain ⟨mid, u, post, h1, h2, h3⟩ := ih ⟨t, hmem, ht0⟩
      refine ⟨a :: mid, u, post, by simp [h1], h2, ?_⟩
      intro x hx
      rcases List.mem_cons.mp hx with h4 | h4
      · exact h4 ▸ ha
      · exact h3 x h4

theorem addScanChecked_exit (s : Sched) (fuel index k : Nat)
    (h : addScanChecked s fuel index = ScanOutcome.exit k) : addScan s fuel index = some k := by
  induction fuel generalizing index with
  | zero => simp [addScanChecked] at h
  | succ fuel ih =>
    rw [addScanChecked] at h
    split at h
    · simp at h
    · rename_i t ht
      rw [addScan, rd_of_getElem? ht]
      split_ifs at h with hc
      · rw [if_pos hc]
        exact ih _ h
      · rw [if_neg hc]
        simp only [ScanOutcome.exit.injEq] at h
        rw [h]

theorem addScanChecked_skip (e : Nat → Task) (mid pre rest : List Task) (fuel : Nat)
    (hcap : (pre ++ mid ++ rest).length ≤ 255) (hmid : ∀ x, x ∈ mid → x.pTask ≠ 0) :
    addScanChecked ⟨pre ++ mid ++ rest, e⟩ (mid.length + fuel) pre.length =
      addScanChecked ⟨pre ++ mid ++ rest, e⟩ fuel (pre.length + mid.length) := by
  induction mid generalizing pre with
  | nil => simp
  | cons t mid ih =>
    have ht : t.pTask ≠ 0 := hmid t (by simp)
    have hlen : pre.length + 1 + mid.length + rest.length ≤ 255 := by
      simp only [List.length_append, List.length_cons] at hcap
      omega
    have h1 : mid.length + 1 + fuel = (mid.length + fuel) + 1 := by omega
    have hget : (pre ++ t :: mid ++ rest)[pre.length]? = some t := by
      rw [List.append_assoc, List.getElem?_append_right (Nat.le_refl _)]
      simp
    rw [List.length_cons, h1, addScanChecked]
    simp only [hget]
    have hlt : pre.length < SCH_MAX_TASKS ⟨pre ++ t :: mid ++ rest, e⟩ := by
      simp only [SCH_MAX_TASKS, List.length_append, List.length_cons]
      omega
    rw [if_pos ⟨ht, hlt⟩]
    have hmod : (pre.length + 1) % UCHAR_MOD = (pre ++ [t]).length := by
      simp only [UCHAR_MOD, List.length_append, List.length_singleton]
      omega
    rw [hmod]
    have h2 := ih (pre ++ [t]) (by simpa using hcap) (fun x hx => hmid x (by simp [hx]))
    simp only [List.append_assoc, List.singleton_append, List.length_append,
      List.length_singleton] at h2 ⊢
    rw [h2]
    congr 1
    omega

theorem addScanChecked_full (s : Sched) (hcap : s.tab.length ≤ 255)
    (hall : ∀ x, x ∈ s.tab → x.pTask ≠ 0) :
    addScanChecked s 256 0 = ScanOutcome.outOfBounds s.tab.length := by
  obtain ⟨l, e⟩ := s
  simp only at hcap hall
  have hskip := addScanChecked_skip e l [] [] (256 - l.length) (by simpa using hcap) hall
  have hfuel : l.length + (256 - l.length) = 256 := by omega
  have hfuel2 : 256 - l.length = (255 - l.length) + 1 := by omega
  simp only [List.nil_append, List.length_nil, Nat.zero_add, hfuel, List.append_nil] at hskip
  have hstop : addScanChecked ⟨l, e⟩ (255 - l.length + 1) l.length =
      ScanOutcome.outOfBounds l.length := by
    rw [addScanChecked]
    simp
  rw [hfuel2, hstop] at hskip
  exact hskip

theorem addScanChecked_exit_lt (s : Sched) (fuel index k : Nat)
    (h : addScanChecked s fuel index = ScanOutcome.exit k) : k < SCH_MAX_TASKS s := by
  induction fuel generalizing index with
  | zero => simp [addScanChecked] at h
  | succ fuel ih =>
    rw [addScanChecked] at h
    split at h
    · simp at h
    · rename_i t ht
      split_ifs at h with hc
      · exact ih _ h
      · simp only [ScanOutcome.exit.injEq] at h
        subst h
        by_contra hn
        rw [List.getElem?_eq_none (Nat.le_of_not_lt hn)] at ht
        exact absurd ht (by simp)

theorem sch_add_task_found (e : Nat → Task) (mid post : List Task) (t : Task)
    (pFunction DELAY PERIOD : Nat)
    (hcap : (mid ++ t :: post).length ≤ 255) (hmid : ∀ x, x ∈ mid → x.pTask ≠ 0)
    (ht : t.pTask = 0) :
    sch_add_task pFunction DELAY PERIOD ⟨mid ++ t :: post, e⟩ =
      some (mid.length, ⟨mid ++ ⟨pFunction, DELAY, PERIOD, 0⟩ :: post, e⟩) := by
  have hlen : mid.length + 1 + post.length ≤ 255 := by
    simp only [List.length_append, List.length_cons] at hcap
    omega
  have hskip := addScanChecked_skip e mid [] (t :: post) (256 - mid.length)
    (by simpa using hcap) hmid
  have hfuel : mid.length + (256 - mid.length) = 256 := by omega
  have hfuel2 : 256 - mid.length = (255 - mid.length) + 1 := by omega
  simp only [List.nil_append, List.length_nil, Nat.zero_add, hfuel] at hskip
  have hget : (mid ++ t :: post)[mid.length]? = some t := by
    rw [List.getElem?_append_right (Nat.le_refl _)]
    simp
  have hstop : addScanChecked ⟨mid ++ t :: post, e⟩ (255 - mid.length + 1) mid.length =
      ScanOutcome.exit mid.length := by
    rw [addScanChecked]
    simp [hget, ht]
  rw [hfuel2, hstop] at hskip
  have hne : mid.length ≠ SCH_MAX_TASKS ⟨mid ++ t :: post, e⟩ := by
    simp only [SCH_MAX_TASKS, List.length_append, List.length_cons]
    omega
  simp only [sch_add_task, hskip, if_neg hne, rd_mid, wr_mid]

theorem sch_add_task_full (s : Sched) (pFunction DELAY PERIOD : Nat)
    (hcap : s.tab.length ≤ 255) (hall : ∀ x, x ∈ s.tab → x.pTask ≠ 0) :
    sch_add_task pFunction DELAY PERIOD s = none := by
  simp only [sch_add_task, addScanChecked_full s hcap hall]

theorem sch_add_task_lt (s s1 : Sched) (pFunction DELAY PERIOD i : Nat)
    (h : sch_add_task pFunction DELAY PERIOD s = some (i, s1)) : i < SCH_MAX_TASKS s := by
  unfold sch_add_task at h
  split at h
  · exact absurd h (by simp)
  · exact absurd h (by simp)
  · rename_i index hscan
    have hlt := addScanChecked_exit_lt s 256 0 index hscan
    split_ifs at h with hfull
    · omega
    · simp only [Option.some.injEq, Prod.mk.injEq] at h
      rw [← h.1]
      exact hlt

theorem all_of_rd (s : Sched) (hfull : ∀ j, j < SCH_MAX_TASKS s → (rd s j).pTask ≠ 0) :
    ∀ x, x ∈ s.tab → x.pTask ≠ 0 := by
  intro x hx
  obtain ⟨k, hk, rfl⟩ := List.getElem_of_mem hx
  have h1 : s.tab[k]? = some s.tab[k] := List.getElem?_eq_getElem hk
  have := hfull k hk
  rwa [rd_of_getElem? h1] at this

/-- C1: on a table (of at most 255 slots) with an empty slot, `sch_add_task`
returns the lowest index `i` whose callback is null; afterwards slot `i` holds
the callback, `delay = DELAY`, `period = PERIOD`, `runme = 0`, and every other
slot, the capacity included, is as before. -/
theorem add_fills_lowest_free_slot (s : Sched) (pFunction DELAY PERIOD : Nat)
    (hcap : SCH_MAX_TASKS s ≤ 255)
    (hfree : ∃ j, j < SCH_MAX_TASKS s ∧ (rd s j).pTask = 0) :
    ∃ i s', sch_add_task pFunction DELAY PERIOD s = some (i, s') ∧
      i < SCH_MAX_TASKS s ∧ (rd s i).pTask = 0 ∧ (∀ j, j < i → (rd s j).pTask ≠ 0) ∧
      rd s' i = ⟨pFunction, DELAY, PERIOD, 0⟩ ∧ (∀ j, j ≠ i → rd s' j = rd s j) ∧
      SCH_MAX_TASKS s' = SCH_MAX_TASKS s := by
  obtain ⟨l, e⟩ := s
  obtain ⟨j, hj, hj0⟩ := hfree
  simp only [SCH_MAX_TASKS] at hcap hj
  obtain ⟨mid, t, post, hl, ht, hmid⟩ := first_free l ⟨rd ⟨l, e⟩ j, rd_lt_mem l e j hj, hj0⟩
  subst hl
  refine ⟨mid.length, ⟨mid ++ ⟨pFunction, DELAY, PERIOD, 0⟩ :: post, e⟩,
    sch_add_task_found e mid post t pFunction DELAY PERIOD hcap hmid ht, ?_, ?_, ?_, ?_, ?_, ?_⟩
  · simp [SCH_MAX_TASKS]
  · rw [rd_mid]
    exact ht
  · intro k hk
    exact hmid _ (rd_left mid (t :: post) e k hk)
  · exact rd_mid _ _ _ _
  · intro k hk
    rw [← set_mid mid post t ⟨pFunction, DELAY, PERIOD, 0⟩]
    exact rd_set_ne _ e _ _ _ hk
  · simp [SCH_MAX_TASKS]

theorem add_fills_lowest_free_slot_witness :
    ∃ i s', sch_add_task 7 3 4 (image [⟨5, 0, 0, 0⟩, ⟨0, 0, 0, 0⟩, ⟨0, 0, 0, 0⟩]) = some (i, s') ∧
      i < SCH_MAX_TASKS (image [⟨5, 0, 0, 0⟩, ⟨0, 0, 0, 0⟩, ⟨0, 0, 0, 0⟩]) ∧
      (rd (image [⟨5, 0, 0, 0⟩, ⟨0, 0, 0, 0⟩, ⟨0, 0, 0, 0⟩]) i).pTask = 0 ∧
      (∀ j, j < i → (rd (image [⟨5, 0, 0, 0⟩, ⟨0, 0, 0, 0⟩, ⟨0, 0, 0, 0⟩]) j).pTask ≠ 0) ∧
      rd s' i = ⟨7, 3, 4, 0⟩ ∧
      (∀ j, j ≠ i → rd s' j = rd (image [⟨5, 0, 0, 0⟩, ⟨0, 0, 0, 0⟩, ⟨0, 0, 0, 0⟩]) j) ∧
      SCH_MAX_TASKS s' = SCH_MAX_TASKS (image [⟨5, 0, 0, 0⟩, ⟨0, 0, 0, 0⟩, ⟨0, 0, 0, 0⟩]) :=
  add_fills_lowest_free_slot (image [⟨5, 0, 0, 0⟩, ⟨0, 0, 0, 0⟩, ⟨0, 0, 0, 0⟩]) 7 3 4
    (by decide) ⟨2, by decide, by decide⟩

/-- C2 on any full table of at most 255 slots: the scan of `sch_add_task` passes
every slot and then reads `sch_tasks_g[SCH_MAX_TASKS]`, outside the array, before
it tests the bound, so the call has no defined result; and no call with a
defined result returns `SCH_MAX_TASKS`: the return that the doc comment
promises for a full table is never reached by a read inside the array. -/
theorem add_on_full_table_is_undefined (s : Sched) (pFunction DELAY PERIOD : Nat)
    (hcap : SCH_MAX_TASKS s ≤ 255)
    (hfull : ∀ j, j < SCH_MAX_TASKS s → (rd s j).pTask ≠ 0) :
    addScanChecked s 256 0 = ScanOutcome.outOfBounds (SCH_MAX_TASKS s) ∧
      sch_add_task pFunction DELAY PERIOD s = none ∧
      ∀ (u u1 : Sched) (i : Nat),
        sch_add_task pFunction DELAY PERIOD u = some (i, u1) → i < SCH_MAX_TASKS u :=
  ⟨addScanChecked_full s hcap (all_of_rd s hfull),
    sch_add_task_full s pFunction DELAY PERIOD hcap (all_of_rd s hfull),
    fun u u1 i h => sch_add_task_lt u u1 pFunction DELAY PERIOD i h⟩

theorem add_on_full_table_is_undefined_witness :
    addScanChecked (image [⟨5, 0, 0, 0⟩, ⟨6, 1, 2, 3⟩]) 256 0 =
        ScanOutcome.outOfBounds (SCH_MAX_TASKS (image [⟨5, 0, 0, 0⟩, ⟨6, 1, 2, 3⟩])) ∧
      sch_add_task 7 3 4 (image [⟨5, 0, 0, 0⟩, ⟨6, 1, 2, 3⟩]) = none ∧
      ∀ (u u1 : Sched) (i : Nat),
        sch_add_task 7 3 4 u = some (i, u1) → i < SCH_MAX_TASKS u :=
  add_on_full_table_is_undefined (image [⟨5, 0, 0, 0⟩, ⟨6, 1, 2, 3⟩]) 7 3 4 (by decide)
    (by decide)

theorem addSeq_fill (e : Nat → Task) (calls : List (Nat × Nat × Nat)) (done : List Task)
    (hdone : ∀ x, x ∈ done → x.pTask ≠ 0) (hcb : ∀ c, c ∈ calls → c.1 ≠ 0)
    (hcap : done.length + calls.length ≤ 255) :
    addSeq calls ⟨done ++ List.replicate calls.length emptyTask, e⟩ =
      some (List.range' done.length calls.length, ⟨done ++ calls.map slotOf, e⟩) := by
  induction calls generalizing done with
  | nil => simp [addSeq]
  | cons c cs ih =>
    have hlen : done.length + (cs.length + 1) ≤ 255 := by simpa using hcap
    have h1 := sch_add_task_found e done (List.replicate cs.length emptyTask) emptyTask
      c.1 c.2.1 c.2.2 (by simp; omega) hdone rfl
    have h2 := ih (done ++ [slotOf c])
      (by
        intro x hx
        rcases List.mem_append.mp hx with h | h
        · exact hdone x h
        · simp only [List.mem_singleton] at h
          subst h
          exact hcb c (by simp))
      (fun d hd => hcb d (by simp [hd]))
      (by simp; omega)
    simp only [List.append_assoc, List.singleton_append, List.length_append,
      List.length_singleton] at h2
    simp only [List.length_cons, List.replicate_succ, addSeq, h1]
    have h3 : (⟨c.1, c.2.1, c.2.2, 0⟩ : Task) = slotOf c := rfl
    rw [h3, h2]
    simp [List.range']

/-- C3 on a freshly initialised table of capacity `N ≤ 255`: any `N` calls of
`sch_add_task` with non-null callbacks return `0, 1, ..., N-1` in this order
(pairwise distinct indices below `N`); one more call, with any arguments,
scans the full table, reads `sch_tasks_g[SCH_MAX_TASKS]` outside the array and
has no defined result. -/
theorem add_past_capacity_is_undefined (s0 : Sched) (calls : List (Nat × Nat × Nat))
    (last : Nat × Nat × Nat)
    (hcap : SCH_MAX_TASKS s0 ≤ 255) (hlen : calls.length = SCH_MAX_TASKS s0)
    (hcb : ∀ c, c ∈ calls → c.1 ≠ 0) :
    ∃ sN, addSeq calls (sch_init_t1 s0) = some (List.range (SCH_MAX_TASKS s0), sN) ∧
      (List.range (SCH_MAX_TASKS s0)).Nodup ∧
      (∀ r, r ∈ List.range (SCH_MAX_TASKS s0) → r < SCH_MAX_TASKS s0) ∧
      addScanChecked sN 256 0 = ScanOutcome.outOfBounds (SCH_MAX_TASKS s0) ∧
      sch_add_task last.1 last.2.1 last.2.2 sN = none := by
  simp only [SCH_MAX_TASKS] at hcap hlen ⊢
  have h := addSeq_fill s0.ext calls [] (by simp) hcb (by simp; omega)
  simp only [List.nil_append, List.length_nil] at h
  have hall : ∀ x, x ∈ (⟨calls.map slotOf, s0.ext⟩ : Sched).tab → x.pTask ≠ 0 := by
    intro x hx
    obtain ⟨c, hc, rfl⟩ := List.mem_map.mp hx
    exact hcb c hc
  have hcapN : (⟨calls.map slotOf, s0.ext⟩ : Sched).tab.length ≤ 255 := by
    simp only [List.length_map]
    omega
  refine ⟨⟨calls.map slotOf, s0.ext⟩, ?_, List.nodup_range _, ?_, ?_, ?_⟩
  · rw [sch_init_t1_eq, ← hlen, h, List.range_eq_range']
  · intro r hr
    exact List.mem_range.mp hr
  · have hscan := addScanChecked_full ⟨calls.map slotOf, s0.ext⟩ hcapN hall
    simpa [hlen] using hscan
  · exact sch_add_task_full ⟨calls.map slotOf, s0.ext⟩ last.1 last.2.1 last.2.2 hcapN hall

theorem add_past_capacity_is_undefined_witness :
    ∃ sN, addSeq [(7, 0, 10), (8, 5, 0)] (sch_init_t1 (image [⟨3, 1, 1, 1⟩, ⟨0, 2, 2, 2⟩])) =
        some (List.range (SCH_MAX_TASKS (image [⟨3, 1, 1, 1⟩, ⟨0, 2, 2, 2⟩])), sN) ∧
      (List.range (SCH_MAX_TASKS (image [⟨3, 1, 1, 1⟩, ⟨0, 2, 2, 2⟩]))).Nodup ∧
      (∀ r, r ∈ List.range (SCH_MAX_TASKS (image [⟨3, 1, 1, 1⟩, ⟨0, 2, 2, 2⟩])) →
        r < SCH_MAX_TASKS (image [⟨3, 1, 1, 1⟩, ⟨0, 2, 2, 2⟩])) ∧
      addScanChecked sN 256 0 =
        ScanOutcome.outOfBounds (SCH_MAX_TASKS (image [⟨3, 1, 1, 1⟩, ⟨0, 2, 2, 2⟩])) ∧
      sch_add_task 9 1 1 sN = none :=
  add_past_capacity_is_undefined (image [⟨3, 1, 1, 1⟩, ⟨0, 2, 2, 2⟩]) [(7, 0, 10), (8, 5, 0)]
    (9, 1, 1) (by decide) (by decide) (by decide)

/-! ## Removal -/

theorem sch_delete_task_lt (s : Sched) (i : Nat) (h : i < s.tab.length) :
    sch_delete_task i s = (0, ⟨s.tab.set i emptyTask, s.ext⟩) := by
  obtain ⟨l, e⟩ := s
  obtain ⟨t, ht⟩ : ∃ t, l[i]? = some t := ⟨l[i], List.getElem?_eq_getElem h⟩
  obtain ⟨pre, rest, hl, hi⟩ := split_at l i t ht
  subst hl hi
  rw [sch_delete_task_mid, set_mid]

theorem sch_delete_task_beyond (s : Sched) (i : Nat) (h : s.tab.length ≤ i) :
    sch_delete_task i s =
      (0, ⟨s.tab, fun k => if k = i - s.tab.length then emptyTask else s.ext k⟩) := by
  obtain ⟨l, e⟩ := s
  have hn : ¬ i < l.length := Nat.not_lt.mpr h
  simp only at h
  simp only [sch_delete_task, wr, rd, List.getElem?_eq_none h, if_neg hn, if_true, emptyTask]
  congr 2
  funext k
  split_ifs <;> rfl

/-- C4, as stated, fails: with capacity 1, `sch_delete_task 1` returns the code
`0` that the removal of slot 0 returns, and overwrites `sch_tasks_g[1]`, the
storage after the table. -/
theorem delete_out_of_bounds_writes :
    SCH_MAX_TASKS crowded = 1 ∧
      (sch_delete_task 1 crowded).1 = (sch_delete_task 0 crowded).1 ∧
      rd crowded 1 = ⟨9, 9, 9, 9⟩ ∧ rd (sch_delete_task 1 crowded).2 1 = ⟨0, 0, 0, 0⟩ := by
  decide

/-- C4, amended: for an index at or past the capacity, `sch_delete_task` returns
`0`, the code of every removal, and makes its unchecked write: the storage at
`sch_tasks_g[index]` becomes the empty slot, while the slots of the table and
all other storage are as before. -/
theorem delete_out_of_bounds_unchecked (s : Sched) (index : Nat)
    (hout : SCH_MAX_TASKS s ≤ index) :
    (sch_delete_task index s).1 = 0 ∧
      (∀ i, (sch_delete_task i s).1 = (sch_delete_task index s).1) ∧
      (sch_delete_task index s).2.tab = s.tab ∧
      rd (sch_delete_task index s).2 index = emptyTask ∧
      ∀ j, j ≠ index → rd (sch_delete_task index s).2 j = rd s j := by
  simp only [SCH_MAX_TASKS] at hout
  rw [sch_delete_task_beyond s index hout]
  refine ⟨rfl, fun i => rfl, rfl, ?_, ?_⟩
  · simp [rd, List.getElem?_eq_none hout]
  · intro j hj
    by_cases hjl : j < s.tab.length
    · simp [rd, List.getElem?_eq_getElem hjl]
    · have hjl2 : s.tab.length ≤ j := Nat.le_of_not_lt hjl
      have hne : j - s.tab.length ≠ index - s.tab.length := by omega
      simp [rd, List.getElem?_eq_none hjl2, hne]

theorem delete_out_of_bounds_unchecked_witness :
    (sch_delete_task 3 crowded).1 = 0 ∧
      (∀ i, (sch_delete_task i crowded).1 = (sch_delete_task 3 crowded).1) ∧
      (sch_delete_task 3 crowded).2.tab = crowded.tab ∧
      rd (sch_delete_task 3 crowded).2 3 = emptyTask ∧
      ∀ j, j ≠ 3 → rd (sch_delete_task 3 crowded).2 j = rd crowded j :=
  delete_out_of_bounds_unchecked crowded 3 (by decide)

/-- C5: removing a slot `i` of the table, active or not, leaves slot `i` empty
and every other slot as it was; a second removal of `i` returns the same code
and leaves the memory unchanged. -/
theorem delete_active_then_again (s : Sched) (i : Nat) (hi : i < SCH_MAX_TASKS s) :
    rd (sch_delete_task i s).2 i = ⟨0, 0, 0, 0⟩ ∧
      (∀ j, j ≠ i → rd (sch_delete_task i s).2 j = rd s j) ∧
      SCH_MAX_TASKS (sch_delete_task i s).2 = SCH_MAX_TASKS s ∧
      (sch_delete_task i (sch_delete_task i s).2).1 = (sch_delete_task i s).1 ∧
      (sch_delete_task i (sch_delete_task i s).2).2 = (sch_delete_task i s).2 := by
  simp only [SCH_MAX_TASKS] at hi
  have h1 := sch_delete_task_lt s i hi
  have h2 := sch_delete_task_lt ⟨s.tab.set i emptyTask, s.ext⟩ i (by simpa using hi)
  simp only [List.set_set] at h2
  rw [h1]
  refine ⟨?_, ?_, ?_, ?_, ?_⟩
  · apply rd_of_getElem?
    simp [hi, emptyTask]
  · intro j hj
    exact rd_set_ne s.tab s.ext i j emptyTask hj
  · simp [SCH_MAX_TASKS]
  · rw [h2]
  · rw [h2]

theorem delete_active_then_again_witness :
    rd (sch_delete_task 1 (image [⟨5, 0, 0, 0⟩, ⟨6, 1, 2, 3⟩])).2 1 = ⟨0, 0, 0, 0⟩ ∧
      (∀ j, j ≠ 1 → rd (sch_delete_task 1 (image [⟨5, 0, 0, 0⟩, ⟨6, 1, 2, 3⟩])).2 j =
        rd (image [⟨5, 0, 0, 0⟩, ⟨6, 1, 2, 3⟩]) j) ∧
      SCH_MAX_TASKS (sch_delete_task 1 (image [⟨5, 0, 0, 0⟩, ⟨6, 1, 2, 3⟩])).2 =
        SCH_MAX_TASKS (image [⟨5, 0, 0, 0⟩, ⟨6, 1, 2, 3⟩]) ∧
      (sch_delete_task 1 (sch_delete_task 1 (image [⟨5, 0, 0, 0⟩, ⟨6, 1, 2, 3⟩])).2).1 =
        (sch_delete_task 1 (image [⟨5, 0, 0, 0⟩, ⟨6, 1, 2, 3⟩])).1 ∧
      (sch_delete_task 1 (sch_delete_task 1 (image [⟨5, 0, 0, 0⟩, ⟨6, 1, 2, 3⟩])).2).2 =
        (sch_delete_task 1 (image [⟨5, 0, 0, 0⟩, ⟨6, 1, 2, 3⟩])).2 :=
  delete_active_then_again (image [⟨5, 0, 0, 0⟩, ⟨6, 1, 2, 3⟩]) 1 (by decide)

/-! ## Ticks -/

theorem ticks_eq (R n : Nat) (s : Sched) :
    ticks R n s = ⟨s.tab.map ((tickSlot R)^[n]), s.ext⟩ := by
  induction n with
  | zero => simp [ticks]
  | succ n ih =>
    rw [ticks, ih, ISR_eq]
    simp only [List.map_map]
    congr 1
    apply List.map_congr_left
    intro t _
    simp [Function.iterate_succ_apply']

theorem rd_ticks_mid (R n : Nat) (mid post : List Task) (t : Task) (e : Nat → Task) :
    rd (ticks R n ⟨mid ++ t :: post, e⟩) mid.length = (tickSlot R)^[n] t := by
  rw [ticks_eq]
  simp only [List.map_append, List.map_cons]
  have h := rd_mid (mid.map ((tickSlot R)^[n])) (post.map ((tickSlot R)^[n]))
    ((tickSlot R)^[n] t) e
  simpa using h

theorem tickSlot_wait (R cb d P r : Nat) (hcb : cb ≠ 0) (hd : 0 < d) (hd2 : d < UINT_MOD) :
    tickSlot R ⟨cb, d, P, r⟩ = ⟨cb, d - 1, P, r⟩ := by
  have h1 : d ≠ 0 := by omega
  have h2 : (d + UINT_MOD - 1) % UINT_MOD = d - 1 := by
    simp only [UINT_MOD] at hd2 ⊢
    omega
  simp [tickSlot, hcb, h1, h2]

theorem tickSlot_fire (R cb P r : Nat) (hcb : cb ≠ 0) (hP : 0 < P) (hP2 : P < UINT_MOD) :
    tickSlot R ⟨cb, 0, P, r⟩ = ⟨cb, P - 1, P, (r + 1) % R⟩ := by
  have h1 : P ≠ 0 := by omega
  have h2 : (P + UINT_MOD - 1) % UINT_MOD = P - 1 := by
    simp only [UINT_MOD] at hP2 ⊢
    omega
  simp [tickSlot, hcb, h1, h2]

theorem iter_wait (R cb D P r : Nat) (hcb : cb ≠ 0) (hD : D < UINT_MOD) (n : Nat) (hn : n ≤ D) :
    (tickSlot R)^[n] ⟨cb, D, P, r⟩ = ⟨cb, D - n, P, r⟩ := by
  induction n with
  | zero => simp
  | succ n ih =>
    rw [Function.iterate_succ_apply', ih (by omega),
      tickSlot_wait R cb (D - n) P r hcb (by omega) (by omega)]
    congr 1

theorem iter_within (R cb D P : Nat) (hcb : cb ≠ 0) (hP2 : P < UINT_MOD) (m c x : Nat)
    (hx : x < P)
    (h0 : (tickSlot R)^[m] ⟨cb, D, P, 0⟩ = ⟨cb, P - 1, P, c⟩) :
    (tickSlot R)^[m + x] ⟨cb, D, P, 0⟩ = ⟨cb, P - 1 - x, P, c⟩ := by
  induction x with
  | zero => simpa using h0
  | succ x ih =>
    rw [← Nat.add_assoc, Function.iterate_succ_apply', ih (by omega),
      tickSlot_wait R cb (P - 1 - x) P c hcb (by omega) (by omega)]
    congr 1

theorem iter_period (R cb D P : Nat) (hcb : cb ≠ 0) (hD : D < UINT_MOD) (hP : 0 < P)
    (hP2 : P < UINT_MOD) (k x : Nat) (hx : x < P) :
    (tickSlot R)^[D + 1 + k * P + x] ⟨cb, D, P, 0⟩ = ⟨cb, P - 1 - x, P, (k + 1) % R⟩ := by
  induction k generalizing x with
  | zero =>
    apply iter_within R cb D P hcb hP2 _ _ x hx
    rw [Nat.zero_mul, Nat.add_zero, Function.iterate_succ_apply',
      iter_wait R cb D P 0 hcb hD D (Nat.le_refl D), Nat.sub_self,
      tickSlot_fire R cb P 0 hcb hP hP2]
  | succ k ih =>
    apply iter_within R cb D P hcb hP2 _ _ x hx
    have h1 : D + 1 + (k + 1) * P = (D + 1 + k * P + (P - 1)) + 1 := by
      rw [Nat.add_mul, Nat.one_mul]
      omega
    have h2 : P - 1 - (P - 1) = 0 := by omega
    rw [h1, Function.iterate_succ_apply', ih (P - 1) (by omega), h2,
      tickSlot_fire R cb P _ hcb hP hP2]
    congr 1
    rw [Nat.add_mod, Nat.mod_mod, ← Nat.add_mod]

theorem sch_add_task_ok (s : Sched) (pFunction DELAY PERIOD : Nat)
    (hcap : SCH_MAX_TASKS s ≤ 255)
    (hfree : ∃ j, j < SCH_MAX_TASKS s ∧ (rd s j).pTask = 0) :
    ∃ mid t post, s.tab = mid ++ t :: post ∧
      sch_add_task pFunction DELAY PERIOD s =
        some (mid.length, ⟨mid ++ ⟨pFunction, DELAY, PERIOD, 0⟩ :: post, s.ext⟩) := by
  obtain ⟨l, e⟩ := s
  obtain ⟨j, hj, hj0⟩ := hfree
  simp only [SCH_MAX_TASKS] at hcap hj
  obtain ⟨mid, t, post, hl, ht, hmid⟩ := first_free l ⟨rd ⟨l, e⟩ j, rd_lt_mem l e j hj, hj0⟩
  subst hl
  exact ⟨mid, t, post, rfl, sch_add_task_found e mid post t pFunction DELAY PERIOD hcap hmid ht⟩

/-- C6: a task added with delay `D` and period `P > 0` (both `unsigned int`),
on which only ticks act afterwards, has its `runme` incremented (in the
arithmetic of its type, modulo `R`) by tick number `n + 1` when
`n + 1 = D + 1 + k * P` for some `k`, and left alone by every other tick. -/
theorem periodic_ready_ticks (s : Sched) (R pFunction D P : Nat)
    (hcap : SCH_MAX_TASKS s ≤ 255)
    (hfree : ∃ j, j < SCH_MAX_TASKS s ∧ (rd s j).pTask = 0)
    (hcb : pFunction ≠ 0) (hD : D < UINT_MOD) (hP : 0 < P) (hP2 : P < UINT_MOD) :
    ∃ i s1, sch_add_task pFunction D P s = some (i, s1) ∧ ∀ n,
      ((∃ k, n + 1 = D + 1 + k * P) →
        (rd (ticks R (n + 1) s1) i).runme = ((rd (ticks R n s1) i).runme + 1) % R) ∧
      ((∀ k, n + 1 ≠ D + 1 + k * P) →
        (rd (ticks R (n + 1) s1) i).runme = (rd (ticks R n s1) i).runme) := by
  obtain ⟨mid, t, post, _, hadd⟩ := sch_add_task_ok s pFunction D P hcap hfree
  refine ⟨_, _, hadd, ?_⟩
  intro n
  rw [rd_ticks_mid, rd_ticks_mid]
  rcases Nat.lt_trichotomy n D with hlt | heq | hgt
  · -- still counting down the initial delay
    rw [iter_wait R pFunction D P 0 hcb hD (n + 1) (by omega),
      iter_wait R pFunction D P 0 hcb hD n (by omega)]
    refine ⟨?_, fun _ => rfl⟩
    rintro ⟨k, hk⟩
    omega
  · -- the first run
    subst heq
    have h1 := iter_period R pFunction n P hcb hD hP hP2 0 0 hP
    simp only [Nat.zero_mul, Nat.add_zero] at h1
    rw [h1, iter_wait R pFunction n P 0 hcb hD n (Nat.le_refl n)]
    refine ⟨fun _ => rfl, ?_⟩
    intro h
    exact absurd (by simp) (h 0)
  · -- inside the period that follows run number `k + 1`
    obtain ⟨k, x, hx, hn⟩ : ∃ k x, x < P ∧ n = D + 1 + k * P + x := by
      refine ⟨(n - D - 1) / P, (n - D - 1) % P, Nat.mod_lt _ hP, ?_⟩
      have := Nat.div_add_mod (n - D - 1) P
      rw [Nat.mul_comm] at this
      omega
    subst hn
    rw [iter_period R pFunction D P hcb hD hP hP2 k x hx]
    by_cases hx1 : x + 1 < P
    · rw [Nat.add_assoc (D + 1 + k * P) x 1,
        iter_period R pFunction D P hcb hD hP hP2 k (x + 1) hx1]
      refine ⟨?_, fun _ => rfl⟩
      rintro ⟨k2, hk2⟩
      exfalso
      have h3 : k * P + (x + 1) = k2 * P := by omega
      rcases Nat.lt_or_ge k k2 with h4 | h4
      · have := Nat.mul_le_mul_right P (Nat.succ_le_of_lt h4)
        rw [Nat.succ_mul] at this
        omega
      · have := Nat.mul_le_mul_right P h4
        omega
    · have hxP : x + 1 = P := by omega
      have h5 : D + 1 + k * P + x + 1 = D + 1 + (k + 1) * P + 0 := by
        rw [Nat.add_mul, Nat.one_mul]
        omega
      rw [h5, iter_period R pFunction D P hcb hD hP hP2 (k + 1) 0 hP]
      refine ⟨fun _ => ?_, ?_⟩
      · show (k + 1 + 1) % R = ((k + 1) % R + 1) % R
        rw [Nat.add_mod (k + 1) 1, Nat.add_mod ((k + 1) % R) 1, Nat.mod_mod]
      · intro h
        exact absurd (by omega) (h (k + 1))

theorem periodic_ready_ticks_witness :
    ∃ i s1, sch_add_task 7 2 3 (image [⟨5, 0, 0, 0⟩, ⟨0, 0, 0, 0⟩]) = some (i, s1) ∧ ∀ n,
      ((∃ k, n + 1 = 2 + 1 + k * 3) →
        (rd (ticks 256 (n + 1) s1) i).runme = ((rd (ticks 256 n s1) i).runme + 1) % 256) ∧
      ((∀ k, n + 1 ≠ 2 + 1 + k * 3) →
        (rd (ticks 256 (n + 1) s1) i).runme = (rd (ticks 256 n s1) i).runme) :=
  periodic_ready_ticks (image [⟨5, 0, 0, 0⟩, ⟨0, 0, 0, 0⟩]) 256 7 2 3 (by decide)
    ⟨1, by decide, by decide⟩ (by decide) (by decide) (by decide) (by decide)

theorem freshTable_eq :
    freshTable = ⟨[] ++ emptyTask :: [emptyTask], fun _ => ⟨0, 0, 0, 0⟩⟩ := by
  rw [freshTable, sch_init_t1_eq]
  rfl

/-- C7, as stated, fails at `sch_add_task(f, 300, 1000)` on a fresh table: the
task goes into slot 0 with `runme = 0`; after 300 ticks `runme` is still `0`
(only `delay` has reached `0`), the tick number 301 makes it `1`; likewise
`runme` is `1` after 1300 ticks and `2` after 1301. -/
theorem first_run_is_one_tick_late :
    ∃ s1, sch_add_task 7 300 1000 freshTable = some (0, s1) ∧
      (rd s1 0).runme = 0 ∧
      rd (ticks 256 300 s1) 0 = ⟨7, 0, 1000, 0⟩ ∧
      (rd (ticks 256 301 s1) 0).runme = 1 ∧
      (rd (ticks 256 1300 s1) 0).runme = 1 ∧
      (rd (ticks 256 1301 s1) 0).runme = 2 := by
  have hadd := sch_add_task_found (fun _ => ⟨0, 0, 0, 0⟩) [] [emptyTask] emptyTask 7 300 1000
    (by decide) (by simp) rfl
  rw [← freshTable_eq] at hadd
  have hcb : (7 : Nat) ≠ 0 := by decide
  have hD : 300 < UINT_MOD := by decide
  have hP : 1000 < UINT_MOD := by decide
  have hrd : ∀ n, rd (ticks 256 n ⟨[] ++ ⟨7, 300, 1000, 0⟩ :: [emptyTask],
      fun _ => ⟨0, 0, 0, 0⟩⟩) 0 = (tickSlot 256)^[n] ⟨7, 300, 1000, 0⟩ :=
    fun n => rd_ticks_mid 256 n [] [emptyTask] ⟨7, 300, 1000, 0⟩ _
  refine ⟨_, hadd, rfl, ?_, ?_, ?_, ?_⟩
  · rw [hrd, iter_wait 256 7 300 1000 0 hcb hD 300 (by decide)]
  · rw [hrd]
    have h := iter_period 256 7 300 1000 hcb hD (by decide) hP 0 0 (by decide)
    rw [show 300 + 1 + 0 * 1000 + 0 = 301 from rfl] at h
    rw [h]
  · rw [hrd]
    have h := iter_period 256 7 300 1000 hcb hD (by decide) hP 0 999 (by decide)
    rw [show 300 + 1 + 0 * 1000 + 999 = 1300 from rfl] at h
    rw [h]
  · rw [hrd]
    have h := iter_period 256 7 300 1000 hcb hD (by decide) hP 1 0 (by decide)
    rw [show 300 + 1 + 1 * 1000 + 0 = 1301 from rfl] at h
    rw [h]

theorem tickSlot_fire_runme (R cb P r : Nat) (hcb : cb ≠ 0) :
    (tickSlot R ⟨cb, 0, P, r⟩).runme = (r + 1) % R := by
  unfold tickSlot
  simp only [hcb, ne_eq, not_false_eq_true, if_true]
  split_ifs <;> rfl

/-- C7, amended: registration leaves `runme = 0`, and a task registered with
delay `D` (an `unsigned int`) is first made ready by tick number `D + 1`: its
`runme` is `0` after each of the first `D` ticks and `1` after tick `D + 1`.
For `D = 0` this is the first tick after registration.  With a period `P > 0`
the following runs come at the ticks `D + 1 + k * P`: `runme` counts `k` runs
after tick `D + k * P` and `k + 1` after the next tick (modulo the width of
`runme`).  So `sch_add_task(f, 300, 1000)` is made ready by the ticks 301,
1301, 2301, which are `T = 300, 1300, 2300` when the first tick is `T = 0`. -/
theorem first_ready_at_tick_after_delay (s : Sched) (R pFunction D P : Nat)
    (hcap : SCH_MAX_TASKS s ≤ 255)
    (hfree : ∃ j, j < SCH_MAX_TASKS s ∧ (rd s j).pTask = 0)
    (hcb : pFunction ≠ 0) (hD : D < UINT_MOD) (hR : 1 < R) :
    ∃ i s1, sch_add_task pFunction D P s = some (i, s1) ∧
      (∀ n, n ≤ D → (rd (ticks R n s1) i).runme = 0) ∧
      (rd (ticks R (D + 1) s1) i).runme = 1 ∧
      (0 < P → P < UINT_MOD → ∀ k,
        (rd (ticks R (D + k * P) s1) i).runme = k % R ∧
        (rd (ticks R (D + 1 + k * P) s1) i).runme = (k + 1) % R) := by
  obtain ⟨mid, t, post, _, hadd⟩ := sch_add_task_ok s pFunction D P hcap hfree
  refine ⟨_, _, hadd, ?_, ?_, ?_⟩
  · intro n hn
    rw [rd_ticks_mid, iter_wait R pFunction D P 0 hcb hD n hn]
  · rw [rd_ticks_mid, Function.iterate_succ_apply',
      iter_wait R pFunction D P 0 hcb hD D (Nat.le_refl D), Nat.sub_self,
      tickSlot_fire_runme R pFunction P 0 hcb, Nat.zero_add, Nat.mod_eq_of_lt hR]
  · intro hP hP2 k
    refine ⟨?_, ?_⟩
    · rw [rd_ticks_mid]
      cases k with
      | zero =>
        rw [Nat.zero_mul, Nat.add_zero, iter_wait R pFunction D P 0 hcb hD D (Nat.le_refl D),
          Nat.zero_mod]
      | succ k =>
        have h1 : D + (k + 1) * P = D + 1 + k * P + (P - 1) := by
          rw [Nat.add_mul, Nat.one_mul]
          omega
        rw [h1, iter_period R pFunction D P hcb hD hP hP2 k (P - 1) (by omega)]
    · rw [rd_ticks_mid]
      have h := iter_period R pFunction D P hcb hD hP hP2 k 0 hP
      rw [Nat.add_zero] at h
      rw [h]

theorem first_ready_at_tick_after_delay_witness :
    ∃ i s1, sch_add_task 7 300 1000 (image [⟨5, 0, 0, 0⟩, ⟨0, 0, 0, 0⟩]) = some (i, s1) ∧
      (∀ n, n ≤ 300 → (rd (ticks 256 n s1) i).runme = 0) ∧
      (rd (ticks 256 (300 + 1) s1) i).runme = 1 ∧
      (0 < 1000 → 1000 < UINT_MOD → ∀ k,
        (rd (ticks 256 (300 + k * 1000) s1) i).runme = k % 256 ∧
        (rd (ticks 256 (300 + 1 + k * 1000) s1) i).runme = (k + 1) % 256) :=
  first_ready_at_tick_after_delay (image [⟨5, 0, 0, 0⟩, ⟨0, 0, 0, 0⟩]) 256 7 300 1000
    (by decide) ⟨1, by decide, by decide⟩ (by decide) (by decide) (by decide)

/-! ## Dispatching -/

theorem callsFrom_append (k : Nat) (a b : List Task) :
    callsFrom k (a ++ b) = callsFrom k a ++ callsFrom (k + a.length) b := by
  induction a generalizing k with
  | nil => simp [callsFrom]
  | cons t a ih =>
    have h : k + 1 + a.length = k + (a.length + 1) := by omega
    show callsFrom k (t :: (a ++ b)) = callsFrom k (t :: a) ++ callsFrom (k + (a.length + 1)) b
    rw [callsFrom, callsFrom, ih, h, List.append_assoc]

theorem callsFrom_index (k : Nat) (l : List Task) (c : Nat × Nat) (h : c ∈ callsFrom k l) :
    k ≤ c.1 ∧ c.1 < k + l.length := by
  induction l generalizing k with
  | nil => simp [callsFrom] at h
  | cons t l ih =>
    simp only [callsFrom, List.mem_append] at h
    rcases h with h | h
    · split_ifs at h
      · simp only [List.mem_singleton] at h
        subst h
        simp
      · simp at h
    · have := ih (k + 1) h
      simp only [List.length_cons]
      omega

theorem callsFrom_slot (mid post : List Task) (t : Task) :
    (callsFrom 0 (mid ++ t :: post)).filter (fun c => decide (c.1 = mid.length)) =
      if t.runme > 0 ∧ t.pTask ≠ 0 then [(mid.length, t.pTask)] else [] := by
  have h1 : (callsFrom 0 mid).filter (fun c => decide (c.1 = mid.length)) = [] := by
    rw [List.filter_eq_nil_iff]
    intro c hc
    have := callsFrom_index 0 mid c hc
    simp only [decide_eq_true_eq]
    omega
  have h2 : (callsFrom (mid.length + 1) post).filter (fun c => decide (c.1 = mid.length)) = [] := by
    rw [List.filter_eq_nil_iff]
    intro c hc
    have := callsFrom_index (mid.length + 1) post c hc
    simp only [decide_eq_true_eq]
    omega
  rw [callsFrom_append, List.filter_append, h1, Nat.zero_add, callsFrom, List.filter_append, h2]
  split_ifs <;> simp

theorem tickSlot_period (R : Nat) (t : Task) : (tickSlot R t).period = t.period := by
  unfold tickSlot
  split_ifs <;> rfl

theorem tickSlot_empty (R : Nat) : tickSlot R emptyTask = emptyTask := by
  simp [tickSlot, emptyTask]

theorem dispSlot_empty (R : Nat) : dispSlot R emptyTask = emptyTask := by
  simp [dispSlot, emptyTask]

theorem run_one_shot (R : Nat) (ops : List Step) (i : Nat) (mid post : List Task) (t : Task)
    (e : Nat → Task) (log : List (Nat × Nat)) (hi : mid.length = i)
    (hinv : (t.period = 0 ∧ callsOfSlot i log = 0) ∨ (t = emptyTask ∧ callsOfSlot i log ≤ 1)) :
    callsOfSlot i (run R ops (⟨mid ++ t :: post, e⟩, log)).2 ≤ 1 ∧
      (callsOfSlot i (run R ops (⟨mid ++ t :: post, e⟩, log)).2 ≠ 0 →
        rd (run R ops (⟨mid ++ t :: post, e⟩, log)).1 i = emptyTask) := by
  induction ops generalizing mid post t log with
  | nil =>
    simp only [run]
    rcases hinv with ⟨_, h⟩ | ⟨h1, h2⟩
    · exact ⟨by omega, fun h3 => absurd h h3⟩
    · refine ⟨h2, fun _ => ?_⟩
      rw [← hi, rd_mid]
      exact h1
  | cons op ops ih =>
    cases op with
    | tick =>
      simp only [run, ISR_eq, List.map_append, List.map_cons]
      apply ih
      · simpa using hi
      · rcases hinv with ⟨h1, h2⟩ | ⟨h1, h2⟩
        · exact Or.inl ⟨by rw [tickSlot_period]; exact h1, h2⟩
        · exact Or.inr ⟨by rw [h1, tickSlot_empty], h2⟩
    | dispatch =>
      simp only [run, sch_dispatch_tasks_eq, List.map_append, List.map_cons]
      apply ih
      · simpa using hi
      · have hc : callsOfSlot i (log ++ callsFrom 0 (mid ++ t :: post)) =
            callsOfSlot i log + (if t.runme > 0 ∧ t.pTask ≠ 0 then 1 else 0) := by
          simp only [callsOfSlot, List.filter_append, List.length_append]
          rw [← hi, callsFrom_slot]
          split_ifs <;> rfl
        rw [hc]
        rcases hinv with ⟨h1, h2⟩ | ⟨h1, h2⟩
        · by_cases hr : t.runme > 0 ∧ t.pTask ≠ 0
          · right
            simp [dispSlot, hr, h1, h2]
          · left
            simp [dispSlot, hr, h1, h2]
        · right
          subst h1
          simp [dispSlot, emptyTask, h2]

/-- C8: a one-shot task (`PERIOD = 0`) is called at most once, whatever
sequence of ticks and dispatcher passes (with quiet callbacks) follows its
registration and however large `runme` has grown before the first pass; once
it has been called its slot is empty. -/
theorem one_shot_runs_at_most_once (s : Sched) (R pFunction D : Nat) (ops : List Step)
    (hcap : SCH_MAX_TASKS s ≤ 255)
    (hfree : ∃ j, j < SCH_MAX_TASKS s ∧ (rd s j).pTask = 0) :
    ∃ i s1, sch_add_task pFunction D 0 s = some (i, s1) ∧
      callsOfSlot i (run R ops (s1, [])).2 ≤ 1 ∧
      (callsOfSlot i (run R ops (s1, [])).2 ≠ 0 →
        rd (run R ops (s1, [])).1 i = ⟨0, 0, 0, 0⟩) := by
  obtain ⟨mid, t, post, _, hadd⟩ := sch_add_task_ok s pFunction D 0 hcap hfree
  exact ⟨_, _, hadd, run_one_shot R ops mid.length mid post ⟨pFunction, D, 0, 0⟩ s.ext [] rfl
    (Or.inl ⟨rfl, rfl⟩)⟩

theorem one_shot_runs_at_most_once_witness :
    ∃ i s1, sch_add_task 7 1 0 (image [⟨5, 0, 0, 0⟩, ⟨0, 0, 0, 0⟩]) = some (i, s1) ∧
      callsOfSlot i (run 256 [Step.tick, Step.tick, Step.tick, Step.dispatch, Step.dispatch]
        (s1, [])).2 ≤ 1 ∧
      (callsOfSlot i (run 256 [Step.tick, Step.tick, Step.tick, Step.dispatch, Step.dispatch]
        (s1, [])).2 ≠ 0 →
        rd (run 256 [Step.tick, Step.tick, Step.tick, Step.dispatch, Step.dispatch]
          (s1, [])).1 i = ⟨0, 0, 0, 0⟩) :=
  one_shot_runs_at_most_once (image [⟨5, 0, 0, 0⟩, ⟨0, 0, 0, 0⟩]) 256 7 1
    [Step.tick, Step.tick, Step.tick, Step.dispatch, Step.dispatch] (by decide)
    ⟨1, by decide, by decide⟩

/-- C10: capacity 4; after `sch_init_t1`, the tasks A (address 11, period 10),
B (12, period 20) and C (13, period 30) are added with delay 0 and land in
slots 0, 1, 2; in 60 rounds of one tick followed by one dispatcher pass, A is
called 6 times, B 3 times and C twice. -/
theorem three_periodic_tasks_sixty_ticks :
    ∃ s3, addSeq [(11, 0, 10), (12, 0, 20), (13, 0, 30)]
        (sch_init_t1 (image [⟨1, 1, 1, 1⟩, ⟨0, 2, 2, 2⟩, ⟨3, 0, 0, 9⟩, ⟨4, 4, 0, 0⟩])) =
          some ([0, 1, 2], s3) ∧
      callsOfFunction 11 (rounds 256 60 (s3, [])).2 = 6 ∧
      callsOfFunction 12 (rounds 256 60 (s3, [])).2 = 3 ∧
      callsOfFunction 13 (rounds 256 60 (s3, [])).2 = 2 :=
  ⟨⟨[⟨11, 0, 10, 0⟩, ⟨12, 0, 20, 0⟩, ⟨13, 0, 30, 0⟩, ⟨0, 0, 0, 0⟩], fun _ => ⟨0, 0, 0, 0⟩⟩,
    rfl, by decide, by decide, by decide⟩

/-! ## Initialisation -/

theorem rd_replicate (n j : Nat) (x : Task) (e : Nat → Task) (h : j < n) :
    rd ⟨List.replicate n x, e⟩ j = x := by
  apply rd_of_getElem?
  simp [List.getElem?_replicate, h]

/-- C11: whatever the memory held, the table part of `sch_init_t1` leaves every
slot of the table empty, keeps the capacity, and applying it twice gives the
same memory as applying it once. -/
theorem init_empties_and_is_idempotent (s : Sched) :
    (∀ j, j < SCH_MAX_TASKS s → rd (sch_init_t1 s) j = ⟨0, 0, 0, 0⟩) ∧
      SCH_MAX_TASKS (sch_init_t1 s) = SCH_MAX_TASKS s ∧
      sch_init_t1 (sch_init_t1 s) = sch_init_t1 s := by
  refine ⟨?_, ?_, ?_⟩
  · intro j hj
    rw [sch_init_t1_eq]
    exact rd_replicate _ j emptyTask s.ext hj
  · rw [sch_init_t1_eq]
    simp [SCH_MAX_TASKS]
  · rw [sch_init_t1_eq, sch_init_t1_eq]
    simp

theorem init_empties_and_is_idempotent_witness :
    (∀ j, j < SCH_MAX_TASKS crowded → rd (sch_init_t1 crowded) j = ⟨0, 0, 0, 0⟩) ∧
      SCH_MAX_TASKS (sch_init_t1 crowded) = SCH_MAX_TASKS crowded ∧
      sch_init_t1 (sch_init_t1 crowded) = sch_init_t1 crowded :=
  init_empties_and_is_idempotent crowded

/-! ## Overflow of `runme` -/

theorem rd_ISR (R : Nat) (s : Sched) (j : Nat) (hj : j < SCH_MAX_TASKS s) :
    rd (ISR R s) j = tickSlot R (rd s j) := by
  simp only [SCH_MAX_TASKS] at hj
  have h1 : s.tab[j]? = some s.tab[j] := List.getElem?_eq_getElem hj
  rw [ISR_eq, rd_of_getElem? h1]
  apply rd_of_getElem?
  simp [h1]

theorem rd_dispatch (R : Nat) (s : Sched) (j : Nat) (hj : j < SCH_MAX_TASKS s) :
    rd (sch_dispatch_tasks R quiet s).1 j = dispSlot R (rd s j) := by
  simp only [SCH_MAX_TASKS] at hj
  have h1 : s.tab[j]? = some s.tab[j] := List.getElem?_eq_getElem hj
  rw [sch_dispatch_tasks_eq, rd_of_getElem? h1]
  apply rd_of_getElem?
  simp [h1]

/-- C12, as stated, fails: with an 8-bit `runme` (`R = 256`), a tick on the
active slot `(7, delay 0, period 0, runme 255)` leaves `runme = 0`, not `255`. -/
theorem runme_wraps_at_255 :
    rd (image [⟨7, 0, 0, 255⟩]) 0 = ⟨7, 0, 0, 255⟩ ∧
      (rd (ISR 256 (image [⟨7, 0, 0, 255⟩])) 0).runme = 0 := by
  decide

/-- C12, amended: for an active slot with `delay = 0` whose `runme` holds the
largest value `R - 1` of its type, a tick wraps `runme` around to `0`; in
general the new value is `(runme + 1) mod R`. -/
theorem runme_increment_wraps (R : Nat) (s : Sched) (j : Nat) (hj : j < SCH_MAX_TASKS s)
    (hact : (rd s j).pTask ≠ 0) (hdelay : (rd s j).delay = 0) :
    (rd (ISR R s) j).runme = ((rd s j).runme + 1) % R ∧
      (0 < R → (rd s j).runme = R - 1 → (rd (ISR R s) j).runme = 0) := by
  have h1 : (rd (ISR R s) j).runme = ((rd s j).runme + 1) % R := by
    rw [rd_ISR R s j hj]
    unfold tickSlot
    simp only [hact, hdelay, ne_eq, not_false_eq_true, if_true]
    split_ifs <;> rfl
  refine ⟨h1, ?_⟩
  intro hR hmax
  rw [h1, hmax, Nat.sub_add_cancel hR, Nat.mod_self]

theorem runme_increment_wraps_witness :
    (rd (ISR 256 (image [⟨5, 3, 4, 0⟩, ⟨7, 0, 10, 255⟩])) 1).runme =
        ((rd (image [⟨5, 3, 4, 0⟩, ⟨7, 0, 10, 255⟩]) 1).runme + 1) % 256 ∧
      (0 < 256 → (rd (image [⟨5, 3, 4, 0⟩, ⟨7, 0, 10, 255⟩]) 1).runme = 256 - 1 →
        (rd (ISR 256 (image [⟨5, 3, 4, 0⟩, ⟨7, 0, 10, 255⟩])) 1).runme = 0) :=
  runme_increment_wraps 256 (image [⟨5, 3, 4, 0⟩, ⟨7, 0, 10, 255⟩]) 1 (by decide) (by decide)
    (by decide)

/-! ## The slot invariant -/

theorem slotOk_empty : slotOk emptyTask := Or.inl rfl

theorem slotOk_tickSlot (R : Nat) (t : Task) (h : slotOk t) : slotOk (tickSlot R t) := by
  unfold tickSlot
  split_ifs with h1 h2 h3
  · exact Or.inr h1
  · exact Or.inr h1
  · exact Or.inr h1
  · exact h

theorem slotOk_dispSlot (R : Nat) (t : Task) (h : slotOk t) : slotOk (dispSlot R t) := by
  unfold dispSlot
  split_ifs with h1 h2
  · exact slotOk_empty
  · exact Or.inr h1.2
  · exact h

theorem wellFormed_map (f : Task → Task) (hf : ∀ t, slotOk t → slotOk (f t)) (l : List Task)
    (e : Nat → Task) (h : wellFormed ⟨l, e⟩) : wellFormed ⟨l.map f, e⟩ := by
  intro t ht
  obtain ⟨u, hu, rfl⟩ := List.mem_map.mp ht
  exact hf u (h u hu)

theorem wellFormed_set (l : List Task) (e e2 : Nat → Task) (k : Nat) (x : Task)
    (h : wellFormed ⟨l, e⟩) (hx : slotOk x) : wellFormed ⟨l.set k x, e2⟩ := by
  intro t ht
  rcases List.mem_or_eq_of_mem_set ht with h1 | h1
  · exact h t h1
  · exact h1 ▸ hx

theorem wr_tab_beyond (s : Sched) (k : Nat) (x : Task) (hk : ¬ k < s.tab.length) :
    (wr s k x).tab = s.tab := by
  simp [wr, hk]

theorem sch_add_task_tab (s s1 : Sched) (pFunction DELAY PERIOD i : Nat)
    (h : sch_add_task pFunction DELAY PERIOD s = some (i, s1)) :
    s1.tab = s.tab ∨ ∃ k, s1.tab = s.tab.set k ⟨pFunction, DELAY, PERIOD, 0⟩ := by
  unfold sch_add_task at h
  split at h
  · exact absurd h (by simp)
  · exact absurd h (by simp)
  · rename_i index hscan
    have hk : index < s.tab.length := addScanChecked_exit_lt s 256 0 index hscan
    split_ifs at h with hfull
    · left
      simp only [Option.some.injEq, Prod.mk.injEq] at h
      rw [← h.2]
    · simp only [Option.some.injEq, Prod.mk.injEq] at h
      right
      obtain ⟨l, e⟩ := s
      obtain ⟨t, ht⟩ : ∃ t, l[index]? = some t := ⟨l[index], List.getElem?_eq_getElem hk⟩
      obtain ⟨pre, rest, hl, hi⟩ := split_at l index t ht
      subst hl hi
      simp only [rd_mid, wr_mid] at h
      refine ⟨pre.length, ?_⟩
      rw [← h.2, set_mid]

/-- C13, as stated, fails: the table with one empty slot satisfies the slot
invariant, but after `sch_add_task(0, 5, 0)`, a null callback, slot 0 is
`(0, delay 5, 0, 0)`, neither empty nor active. -/
theorem add_null_callback_breaks_invariant :
    wellFormed (image [⟨0, 0, 0, 0⟩]) ∧
      ∃ s1, sch_add_task 0 5 0 (image [⟨0, 0, 0, 0⟩]) = some (0, s1) ∧
        rd s1 0 = ⟨0, 5, 0, 0⟩ ∧ ¬ wellFormed s1 :=
  ⟨by decide, ⟨[⟨0, 5, 0, 0⟩], fun _ => ⟨0, 0, 0, 0⟩⟩, rfl, by decide, by decide⟩

/-- C13, amended: if every slot of the table is empty or active, the same
holds after `sch_init_t1`, after `sch_add_task` with a callback that is not
null (or with `DELAY = PERIOD = 0`), after `sch_delete_task` of an index of the
table, after a tick, and after a dispatcher pass with quiet callbacks. -/
theorem slot_invariant_preserved (R : Nat) (s : Sched) (hwf : wellFormed s) :
    wellFormed (sch_init_t1 s) ∧
      (∀ pFunction DELAY PERIOD i s1, (pFunction ≠ 0 ∨ (DELAY = 0 ∧ PERIOD = 0)) →
        sch_add_task pFunction DELAY PERIOD s = some (i, s1) → wellFormed s1) ∧
      (∀ i, i < SCH_MAX_TASKS s → wellFormed (sch_delete_task i s).2) ∧
      wellFormed (ISR R s) ∧
      wellFormed (sch_dispatch_tasks R quiet s).1 := by
  obtain ⟨l, e⟩ := s
  refine ⟨?_, ?_, ?_, ?_, ?_⟩
  · rw [sch_init_t1_eq]
    intro t ht
    rw [List.eq_of_mem_replicate ht]
    exact slotOk_empty
  · intro pFunction DELAY PERIOD i s1 hargs hadd
    have hnew : slotOk ⟨pFunction, DELAY, PERIOD, 0⟩ := by
      rcases hargs with h | ⟨h1, h2⟩
      · exact Or.inr h
      · by_cases hp : pFunction = 0
        · left
          rw [hp, h1, h2]
        · exact Or.inr hp
    obtain ⟨l1, e1⟩ := s1
    rcases sch_add_task_tab _ _ _ _ _ _ hadd with h | ⟨k, h⟩
    · simp only at h
      intro t ht
      exact hwf t (by simpa [h] using ht)
    · simp only at h
      rw [h]
      exact wellFormed_set l e e1 k _ hwf hnew
  · intro i hi
    rw [sch_delete_task_lt _ i hi]
    exact wellFormed_set l e e i _ hwf slotOk_empty
  · rw [ISR_eq]
    exact wellFormed_map _ (slotOk_tickSlot R) l e hwf
  · rw [sch_dispatch_tasks_eq]
    exact wellFormed_map _ (slotOk_dispSlot R) l e hwf

theorem slot_invariant_preserved_witness :
    wellFormed (sch_init_t1 (image [⟨5, 3, 4, 1⟩, ⟨0, 0, 0, 0⟩])) ∧
      (∀ pFunction DELAY PERIOD i s1, (pFunction ≠ 0 ∨ (DELAY = 0 ∧ PERIOD = 0)) →
        sch_add_task pFunction DELAY PERIOD (image [⟨5, 3, 4, 1⟩, ⟨0, 0, 0, 0⟩]) = some (i, s1) →
        wellFormed s1) ∧
      (∀ i, i < SCH_MAX_TASKS (image [⟨5, 3, 4, 1⟩, ⟨0, 0, 0, 0⟩]) →
        wellFormed (sch_delete_task i (image [⟨5, 3, 4, 1⟩, ⟨0, 0, 0, 0⟩])).2) ∧
      wellFormed (ISR 256 (image [⟨5, 3, 4, 1⟩, ⟨0, 0, 0, 0⟩])) ∧
      wellFormed (sch_dispatch_tasks 256 quiet (image [⟨5, 3, 4, 1⟩, ⟨0, 0, 0, 0⟩])).1 :=
  slot_invariant_preserved 256 (image [⟨5, 3, 4, 1⟩, ⟨0, 0, 0, 0⟩]) (by decide)

/-! ## A dispatcher that keeps up -/

theorem tickSlot_runme_le (R : Nat) (t : Task) (h : t.runme = 0) :
    (tickSlot R t).runme ≤ 1 ∧ ((tickSlot R t).pTask = 0 → (tickSlot R t).runme = 0) := by
  have hmod : (0 + 1) % R ≤ 1 := Nat.mod_le _ _
  unfold tickSlot
  split_ifs with h1 h2 h3
  · exact ⟨by rw [h]; exact hmod, fun h4 => absurd h4 h1⟩
  · exact ⟨by rw [h]; exact hmod, fun h4 => absurd h4 h1⟩
  · exact ⟨by rw [h]; exact Nat.zero_le 1, fun h4 => absurd h4 h1⟩
  · exact ⟨by rw [h]; exact Nat.zero_le 1, fun _ => h⟩

theorem dispSlot_runme_zero (R : Nat) (t : Task) (h1 : t.runme ≤ 1)
    (h2 : t.pTask = 0 → t.runme = 0) : (dispSlot R t).runme = 0 := by
  unfold dispSlot
  split_ifs with h3 h4
  · rfl
  · have h5 : t.runme = 1 := by omega
    show (t.runme + R - 1) % R = 0
    rw [h5, Nat.add_sub_cancel_left, Nat.mod_self]
  · by_cases h6 : t.pTask = 0
    · exact h2 h6
    · have : ¬ t.runme > 0 := fun h7 => h3 ⟨h7, h6⟩
      omega

theorem runme_after_round (R : Nat) (t : Task) (h : t.runme = 0) :
    (tickSlot R t).runme ≤ 1 ∧ (dispSlot R (tickSlot R t)).runme = 0 :=
  ⟨(tickSlot_runme_le R t h).1,
    dispSlot_runme_zero R _ (tickSlot_runme_le R t h).1 (tickSlot_runme_le R t h).2⟩

theorem rounds_tab (R n : Nat) (s : Sched) :
    (rounds R n (s, [])).1 =
      ⟨s.tab.map ((fun t => dispSlot R (tickSlot R t))^[n]), s.ext⟩ := by
  induction n with
  | zero => simp [rounds]
  | succ n ih =>
    simp only [rounds, ih, ISR_eq, sch_dispatch_tasks_eq, List.map_map]
    congr 1
    apply List.map_congr_left
    intro t _
    simp [Function.iterate_succ_apply']

theorem iter_round_runme (R n : Nat) (t : Task) (h : t.runme = 0) :
    ((fun t => dispSlot R (tickSlot R t))^[n] t).runme = 0 := by
  induction n with
  | zero => simpa using h
  | succ n ih =>
    rw [Function.iterate_succ_apply']
    exact (runme_after_round R _ ih).2

/-- C14: start from a table in which every `runme` is `0` and let one
dispatcher pass (quiet callbacks) follow every tick.  Then after any number
of such rounds every `runme` is `0` again, and the tick that comes next
leaves every `runme` at most `1`. -/
theorem runme_at_most_one_when_dispatched_every_tick (R : Nat) (s : Sched) (n : Nat)
    (h0 : ∀ t, t ∈ s.tab → t.runme = 0) :
    (∀ t, t ∈ (rounds R n (s, [])).1.tab → t.runme = 0) ∧
      (∀ t, t ∈ (ISR R (rounds R n (s, [])).1).tab → t.runme ≤ 1) := by
  rw [ISR_eq, rounds_tab]
  refine ⟨?_, ?_⟩
  · intro t ht
    obtain ⟨u, hu, rfl⟩ := List.mem_map.mp ht
    exact iter_round_runme R n u (h0 u hu)
  · intro t ht
    obtain ⟨v, hv, rfl⟩ := List.mem_map.mp ht
    obtain ⟨u, hu, rfl⟩ := List.mem_map.mp hv
    exact (runme_after_round R _ (iter_round_runme R n u (h0 u hu))).1

theorem runme_at_most_one_when_dispatched_every_tick_witness :
    (∀ t, t ∈ (rounds 256 7 (image [⟨5, 0, 2, 0⟩, ⟨6, 3, 0, 0⟩, ⟨0, 0, 0, 0⟩], [])).1.tab →
        t.runme = 0) ∧
      (∀ t, t ∈ (ISR 256 (rounds 256 7
        (image [⟨5, 0, 2, 0⟩, ⟨6, 3, 0, 0⟩, ⟨0, 0, 0, 0⟩], [])).1).tab → t.runme ≤ 1) :=
  runme_at_most_one_when_dispatched_every_tick 256
    (image [⟨5, 0, 2, 0⟩, ⟨6, 3, 0, 0⟩, ⟨0, 0, 0, 0⟩]) 7 (by decide)

/-! ## One tick, slot by slot -/

/-- C15: a tick acts on each slot of the table by itself, the new slot being
a function of the old one, and leaves the storage after the table alone.
Callback and period never change; a slot with a null callback is unchanged;
an active slot with `delay > 0` gets `delay - 1` and keeps `runme`; an active
slot with `delay = 0` gets `runme + 1` (in the arithmetic of its type: modulo
`R`, so exactly `runme + 1` below the maximum) and `delay = period - 1` when
`period > 0`, `delay = 0` when `period = 0`.  The fields `delay` and `period`
hold `unsigned int` values. -/
theorem tick_slot_by_slot (R : Nat) (s : Sched) (j : Nat) (hj : j < SCH_MAX_TASKS s)
    (hd : (rd s j).delay < UINT_MOD) (hp : (rd s j).period < UINT_MOD) :
    (∀ s2 : Sched, SCH_MAX_TASKS s2 = SCH_MAX_TASKS s → rd s2 j = rd s j →
        rd (ISR R s2) j = rd (ISR R s) j) ∧
      (∀ k, SCH_MAX_TASKS s ≤ k → rd (ISR R s) k = rd s k) ∧
      (rd (ISR R s) j).pTask = (rd s j).pTask ∧
      (rd (ISR R s) j).period = (rd s j).period ∧
      ((rd s j).pTask = 0 → rd (ISR R s) j = rd s j) ∧
      ((rd s j).pTask ≠ 0 → 0 < (rd s j).delay →
        (rd (ISR R s) j).delay = (rd s j).delay - 1 ∧
        (rd (ISR R s) j).runme = (rd s j).runme) ∧
      ((rd s j).pTask ≠ 0 → (rd s j).delay = 0 →
        (rd (ISR R s) j).runme = ((rd s j).runme + 1) % R ∧
        ((rd s j).runme + 1 < R → (rd (ISR R s) j).runme = (rd s j).runme + 1) ∧
        (0 < (rd s j).period → (rd (ISR R s) j).delay = (rd s j).period - 1) ∧
        ((rd s j).period = 0 → (rd (ISR R s) j).delay = 0)) := by
  have hdec : ∀ x, 0 < x → x < UINT_MOD → (x + UINT_MOD - 1) % UINT_MOD = x - 1 := by
    intro x h1 h2
    simp only [UINT_MOD] at h2 ⊢
    omega
  refine ⟨?_, ?_, ?_⟩
  · intro s2 hlen hsame
    rw [rd_ISR R s2 j (by rw [hlen]; exact hj), rd_ISR R s j hj, hsame]
  · intro k hk
    simp only [SCH_MAX_TASKS] at hk
    rw [ISR_eq, rd_beyond _ _ (by simpa using hk), rd_beyond _ _ hk]
    simp
  · rw [rd_ISR R s j hj]
    generalize rd s j = t at hd hp
    obtain ⟨p, d, q, r⟩ := t
    simp only at hd hp
    simp only
    refine ⟨?_, ?_, ?_, ?_, ?_⟩
    · unfold tickSlot
      split_ifs <;> rfl
    · unfold tickSlot
      split_ifs <;> rfl
    · intro h
      simp [tickSlot, h]
    · intro h1 h2
      have h3 : d ≠ 0 := by omega
      have e : tickSlot R ⟨p, d, q, r⟩ = ⟨p, d - 1, q, r⟩ := by
        simp [tickSlot, h1, h3, hdec d h2 hd]
      rw [e]
      exact ⟨rfl, rfl⟩
    · intro h1 h2
      subst h2
      by_cases hq : q = 0
      · subst hq
        have e : tickSlot R ⟨p, 0, 0, r⟩ = ⟨p, 0, 0, (r + 1) % R⟩ := by
          simp [tickSlot, h1]
        rw [e]
        exact ⟨rfl, fun h => Nat.mod_eq_of_lt h, fun h => absurd h (Nat.lt_irrefl 0),
          fun _ => rfl⟩
      · have hq2 : 0 < q := Nat.pos_of_ne_zero hq
        have e : tickSlot R ⟨p, 0, q, r⟩ = ⟨p, q - 1, q, (r + 1) % R⟩ := by
          simp [tickSlot, h1, hq, hdec q hq2 hp]
        rw [e]
        exact ⟨rfl, fun h => Nat.mod_eq_of_lt h, fun _ => rfl, fun h => absurd h hq⟩

theorem tick_slot_by_slot_witness :
    (∀ s2 : Sched, SCH_MAX_TASKS s2 = SCH_MAX_TASKS (image [⟨5, 3, 4, 0⟩, ⟨7, 0, 10, 2⟩]) →
        rd s2 1 = rd (image [⟨5, 3, 4, 0⟩, ⟨7, 0, 10, 2⟩]) 1 →
        rd (ISR 256 s2) 1 = rd (ISR 256 (image [⟨5, 3, 4, 0⟩, ⟨7, 0, 10, 2⟩])) 1) ∧
      (∀ k, SCH_MAX_TASKS (image [⟨5, 3, 4, 0⟩, ⟨7, 0, 10, 2⟩]) ≤ k →
        rd (ISR 256 (image [⟨5, 3, 4, 0⟩, ⟨7, 0, 10, 2⟩])) k =
          rd (image [⟨5, 3, 4, 0⟩, ⟨7, 0, 10, 2⟩]) k) ∧
      (rd (ISR 256 (image [⟨5, 3, 4, 0⟩, ⟨7, 0, 10, 2⟩])) 1).pTask =
        (rd (image [⟨5, 3, 4, 0⟩, ⟨7, 0, 10, 2⟩]) 1).pTask ∧
      (rd (ISR 256 (image [⟨5, 3, 4, 0⟩, ⟨7, 0, 10, 2⟩])) 1).period =
        (rd (image [⟨5, 3, 4, 0⟩, ⟨7, 0, 10, 2⟩]) 1).period ∧
      ((rd (image [⟨5, 3, 4, 0⟩, ⟨7, 0, 10, 2⟩]) 1).pTask = 0 →
        rd (ISR 256 (image [⟨5, 3, 4, 0⟩, ⟨7, 0, 10, 2⟩])) 1 =
          rd (image [⟨5, 3, 4, 0⟩, ⟨7, 0, 10, 2⟩]) 1) ∧
      ((rd (image [⟨5, 3, 4, 0⟩, ⟨7, 0, 10, 2⟩]) 1).pTask ≠ 0 →
        0 < (rd (image [⟨5, 3, 4, 0⟩, ⟨7, 0, 10, 2⟩]) 1).delay →
        (rd (ISR 256 (image [⟨5, 3, 4, 0⟩, ⟨7, 0, 10, 2⟩])) 1).delay =
          (rd (image [⟨5, 3, 4, 0⟩, ⟨7, 0, 10, 2⟩]) 1).delay - 1 ∧
        (rd (ISR 256 (image [⟨5, 3, 4, 0⟩, ⟨7, 0, 10, 2⟩])) 1).runme =
          (rd (image [⟨5, 3, 4, 0⟩, ⟨7, 0, 10, 2⟩]) 1).runme) ∧
      ((rd (image [⟨5, 3, 4, 0⟩, ⟨7, 0, 10, 2⟩]) 1).pTask ≠ 0 →
        (rd (image [⟨5, 3, 4, 0⟩, ⟨7, 0, 10, 2⟩]) 1).delay = 0 →
        (rd (ISR 256 (image [⟨5, 3, 4, 0⟩, ⟨7, 0, 10, 2⟩])) 1).runme =
          ((rd (image [⟨5, 3, 4, 0⟩, ⟨7, 0, 10, 2⟩]) 1).runme + 1) % 256 ∧
        ((rd (image [⟨5, 3, 4, 0⟩, ⟨7, 0, 10, 2⟩]) 1).runme + 1 < 256 →
          (rd (ISR 256 (image [⟨5, 3, 4, 0⟩, ⟨7, 0, 10, 2⟩])) 1).runme =
            (rd (image [⟨5, 3, 4, 0⟩, ⟨7, 0, 10, 2⟩]) 1).runme + 1) ∧
        (0 < (rd (image [⟨5, 3, 4, 0⟩, ⟨7, 0, 10, 2⟩]) 1).period →
          (rd (ISR 256 (image [⟨5, 3, 4, 0⟩, ⟨7, 0, 10, 2⟩])) 1).delay =
            (rd (image [⟨5, 3, 4, 0⟩, ⟨7, 0, 10, 2⟩]) 1).period - 1) ∧
        ((rd (image [⟨5, 3, 4, 0⟩, ⟨7, 0, 10, 2⟩]) 1).period = 0 →
          (rd (ISR 256 (image [⟨5, 3, 4, 0⟩, ⟨7, 0, 10, 2⟩])) 1).delay = 0)) :=
  tick_slot_by_slot 256 (image [⟨5, 3, 4, 0⟩, ⟨7, 0, 10, 2⟩]) 1 (by decide) (by decide)
    (by decide)

/-! ## One dispatcher pass, slot by slot -/

theorem callsFrom_sorted (k : Nat) (l : List Task) :
    (callsFrom k l).Pairwise (fun a b => a.1 < b.1) := by
  induction l generalizing k with
  | nil => simp [callsFrom]
  | cons t l ih =>
    rw [callsFrom, List.pairwise_append]
    refine ⟨?_, ih (k + 1), ?_⟩
    · split_ifs <;> simp
    · intro a ha b hb
      have hb2 := (callsFrom_index (k + 1) l b hb).1
      split_ifs at ha
      · simp only [List.mem_singleton] at ha
        subst ha
        exact hb2
      · simp at ha

theorem mem_callsFrom (k : Nat) (l : List Task) (i p : Nat) :
    (i, p) ∈ callsFrom k l ↔
      ∃ t, k ≤ i ∧ l[i - k]? = some t ∧ 0 < t.runme ∧ t.pTask ≠ 0 ∧ p = t.pTask := by
  induction l generalizing k with
  | nil => simp [callsFrom]
  | cons t l ih =>
    rw [callsFrom, List.mem_append, ih (k + 1)]
    constructor
    · rintro (h | ⟨u, h1, h2, h3, h4, h5⟩)
      · split_ifs at h with hr
        · simp only [List.mem_singleton, Prod.mk.injEq] at h
          obtain ⟨rfl, rfl⟩ := h
          exact ⟨t, Nat.le_refl _, by simp, hr.1, hr.2, rfl⟩
        · simp at h
      · refine ⟨u, by omega, ?_, h3, h4, h5⟩
        have : i - k = (i - (k + 1)) + 1 := by omega
        rw [this, List.getElem?_cons_succ]
        exact h2
    · rintro ⟨u, h1, h2, h3, h4, h5⟩
      by_cases hik : i = k
      · left
        subst hik
        simp only [Nat.sub_self, List.getElem?_cons_zero, Option.some.injEq] at h2
        subst h2
        rw [if_pos ⟨h3, h4⟩, h5]
        simp
      · right
        refine ⟨u, by omega, ?_, h3, h4, h5⟩
        have : i - k = (i - (k + 1)) + 1 := by omega
        rw [this, List.getElem?_cons_succ] at h2
        exact h2

theorem callsFrom_none (k : Nat) (l : List Task)
    (h : ∀ t, t ∈ l → ¬ (t.runme > 0 ∧ t.pTask ≠ 0)) : callsFrom k l = [] := by
  induction l generalizing k with
  | nil => rfl
  | cons t l ih =>
    rw [callsFrom, if_neg (h t (by simp)), ih (k + 1) (fun u hu => h u (by simp [hu]))]
    rfl

/-- C16: one dispatcher pass with quiet callbacks.  The calls are made in
increasing order of the slot index, at most one per slot, and slot `i` is
called (through its own callback) exactly when `i` is in the table, active
and has `runme > 0`.  A periodic slot that is called ends with `runme - 1`
and its other fields unchanged; a slot that is empty or has `runme = 0` is
unchanged; if no slot is ready the pass changes nothing and calls nothing.
The field `runme` of slot `j` holds a value of its type. -/
theorem dispatch_pass_slot_by_slot (R : Nat) (s : Sched) (j : Nat) (hj : j < SCH_MAX_TASKS s)
    (hr : (rd s j).runme < R) :
    (sch_dispatch_tasks R quiet s).2.Pairwise (fun a b => a.1 < b.1) ∧
      (∀ i p, (i, p) ∈ (sch_dispatch_tasks R quiet s).2 ↔
        i < SCH_MAX_TASKS s ∧ 0 < (rd s i).runme ∧ (rd s i).pTask ≠ 0 ∧ p = (rd s i).pTask) ∧
      (0 < (rd s j).runme → (rd s j).pTask ≠ 0 → (rd s j).period ≠ 0 →
        rd (sch_dispatch_tasks R quiet s).1 j =
          ⟨(rd s j).pTask, (rd s j).delay, (rd s j).period, (rd s j).runme - 1⟩) ∧
      ((rd s j).pTask = 0 ∨ (rd s j).runme = 0 →
        rd (sch_dispatch_tasks R quiet s).1 j = rd s j) ∧
      ((∀ i, i < SCH_MAX_TASKS s → (rd s i).pTask = 0 ∨ (rd s i).runme = 0) →
        sch_dispatch_tasks R quiet s = (s, [])) := by
  refine ⟨?_, ?_, ?_, ?_, ?_⟩
  · rw [sch_dispatch_tasks_eq]
    exact callsFrom_sorted 0 s.tab
  · intro i p
    rw [sch_dispatch_tasks_eq]
    simp only [mem_callsFrom, Nat.zero_le, Nat.sub_zero, true_and, SCH_MAX_TASKS]
    constructor
    · rintro ⟨t, h1, h2, h3, h4⟩
      have hi : i < s.tab.length := by
        by_contra hc
        rw [List.getElem?_eq_none (Nat.le_of_not_lt hc)] at h1
        exact absurd h1 (by simp)
      rw [rd_of_getElem? h1]
      exact ⟨hi, h2, h3, h4⟩
    · rintro ⟨hi, h2, h3, h4⟩
      have h1 : s.tab[i]? = some s.tab[i] := List.getElem?_eq_getElem hi
      rw [rd_of_getElem? h1] at h2 h3 h4
      exact ⟨_, h1, h2, h3, h4⟩
  · intro h1 h2 h3
    rw [rd_dispatch R s j hj]
    have h4 : ((rd s j).runme + R - 1) % R = (rd s j).runme - 1 := by
      have h5 : (rd s j).runme + R - 1 = ((rd s j).runme - 1) + R := by omega
      rw [h5, Nat.add_mod_right, Nat.mod_eq_of_lt (by omega)]
    simp [dispSlot, h1, h2, h3, h4]
  · intro h
    rw [rd_dispatch R s j hj]
    have : ¬ ((rd s j).runme > 0 ∧ (rd s j).pTask ≠ 0) := by
      rintro ⟨h1, h2⟩
      rcases h with h | h
      · exact h2 h
      · omega
    simp [dispSlot, this]
  · intro h
    have hnot : ∀ t, t ∈ s.tab → ¬ (t.runme > 0 ∧ t.pTask ≠ 0) := by
      intro t ht
      obtain ⟨k, hk, rfl⟩ := List.getElem_of_mem ht
      have h1 : s.tab[k]? = some s.tab[k] := List.getElem?_eq_getElem hk
      have h2 := h k hk
      rw [rd_of_getElem? h1] at h2
      rintro ⟨h3, h4⟩
      rcases h2 with h2 | h2
      · exact h4 h2
      · omega
    rw [sch_dispatch_tasks_eq, callsFrom_none 0 s.tab hnot]
    have hmap : s.tab.map (dispSlot R) = s.tab := by
      have h1 : s.tab.map (dispSlot R) = s.tab.map id := by
        apply List.map_congr_left
        intro t ht
        simp [dispSlot, hnot t ht]
      rw [h1, List.map_id]
    rw [hmap]

theorem dispatch_pass_slot_by_slot_witness :
    (sch_dispatch_tasks 256 quiet (image [⟨5, 3, 4, 2⟩, ⟨0, 0, 0, 0⟩, ⟨7, 0, 0, 1⟩])).2.Pairwise
        (fun a b => a.1 < b.1) ∧
      (∀ i p, (i, p) ∈
          (sch_dispatch_tasks 256 quiet (image [⟨5, 3, 4, 2⟩, ⟨0, 0, 0, 0⟩, ⟨7, 0, 0, 1⟩])).2 ↔
        i < SCH_MAX_TASKS (image [⟨5, 3, 4, 2⟩, ⟨0, 0, 0, 0⟩, ⟨7, 0, 0, 1⟩]) ∧
          0 < (rd (image [⟨5, 3, 4, 2⟩, ⟨0, 0, 0, 0⟩, ⟨7, 0, 0, 1⟩]) i).runme ∧
          (rd (image [⟨5, 3, 4, 2⟩, ⟨0, 0, 0, 0⟩, ⟨7, 0, 0, 1⟩]) i).pTask ≠ 0 ∧
          p = (rd (image [⟨5, 3, 4, 2⟩, ⟨0, 0, 0, 0⟩, ⟨7, 0, 0, 1⟩]) i).pTask) ∧
      (0 < (rd (image [⟨5, 3, 4, 2⟩, ⟨0, 0, 0, 0⟩, ⟨7, 0, 0, 1⟩]) 0).runme →
        (rd (image [⟨5, 3, 4, 2⟩, ⟨0, 0, 0, 0⟩, ⟨7, 0, 0, 1⟩]) 0).pTask ≠ 0 →
        (rd (image [⟨5, 3, 4, 2⟩, ⟨0, 0, 0, 0⟩, ⟨7, 0, 0, 1⟩]) 0).period ≠ 0 →
        rd (sch_dispatch_tasks 256 quiet
            (image [⟨5, 3, 4, 2⟩, ⟨0, 0, 0, 0⟩, ⟨7, 0, 0, 1⟩])).1 0 =
          ⟨(rd (image [⟨5, 3, 4, 2⟩, ⟨0, 0, 0, 0⟩, ⟨7, 0, 0, 1⟩]) 0).pTask,
            (rd (image [⟨5, 3, 4, 2⟩, ⟨0, 0, 0, 0⟩, ⟨7, 0, 0, 1⟩]) 0).delay,
            (rd (image [⟨5, 3, 4, 2⟩, ⟨0, 0, 0, 0⟩, ⟨7, 0, 0, 1⟩]) 0).period,
            (rd (image [⟨5, 3, 4, 2⟩, ⟨0, 0, 0, 0⟩, ⟨7, 0, 0, 1⟩]) 0).runme - 1⟩) ∧
      ((rd (image [⟨5, 3, 4, 2⟩, ⟨0, 0, 0, 0⟩, ⟨7, 0, 0, 1⟩]) 0).pTask = 0 ∨
          (rd (image [⟨5, 3, 4, 2⟩, ⟨0, 0, 0, 0⟩, ⟨7, 0, 0, 1⟩]) 0).runme = 0 →
        rd (sch_dispatch_tasks 256 quiet
            (image [⟨5, 3, 4, 2⟩, ⟨0, 0, 0, 0⟩, ⟨7, 0, 0, 1⟩])).1 0 =
          rd (image [⟨5, 3, 4, 2⟩, ⟨0, 0, 0, 0⟩, ⟨7, 0, 0, 1⟩]) 0) ∧
      ((∀ i, i < SCH_MAX_TASKS (image [⟨5, 3, 4, 2⟩, ⟨0, 0, 0, 0⟩, ⟨7, 0, 0, 1⟩]) →
          (rd (image [⟨5, 3, 4, 2⟩, ⟨0, 0, 0, 0⟩, ⟨7, 0, 0, 1⟩]) i).pTask = 0 ∨
          (rd (image [⟨5, 3, 4, 2⟩, ⟨0, 0, 0, 0⟩, ⟨7, 0, 0, 1⟩]) i).runme = 0) →
        sch_dispatch_tasks 256 quiet (image [⟨5, 3, 4, 2⟩, ⟨0, 0, 0, 0⟩, ⟨7, 0, 0, 1⟩]) =
          (image [⟨5, 3, 4, 2⟩, ⟨0, 0, 0, 0⟩, ⟨7, 0, 0, 1⟩], [])) :=
  dispatch_pass_slot_by_slot 256 (image [⟨5, 3, 4, 2⟩, ⟨0, 0, 0, 0⟩, ⟨7, 0, 0, 1⟩]) 0
    (by decide) (by decide)

/-! ## No counter underflows -/

/-- C19, as stated, fails: the dispatcher tests `runme > 0`, then runs the
callback, then executes `runme--`.  With an 8-bit `runme`, slot 0 holds
`(7, 0, 5, 1)`; its callback removes the task and registers it again, which
leaves `runme = 0`, and the decrement that follows wraps it to `255`. -/
theorem callback_reregistering_underflows_runme :
    inRange 256 (rd (image [⟨7, 0, 5, 1⟩]) 0) ∧
      rd (reRegister 7 (image [⟨7, 0, 5, 1⟩])) 0 = ⟨7, 0, 5, 0⟩ ∧
      rd (sch_dispatch_tasks 256 reRegister (image [⟨7, 0, 5, 1⟩])).1 0 = ⟨7, 0, 5, 255⟩ ∧
      (sch_dispatch_tasks 256 reRegister (image [⟨7, 0, 5, 1⟩])).2 = [(0, 7)] := by
  decide

/-- C19, amended: as long as the callbacks leave the table alone, no counter
underflows.  On a slot whose fields hold values of their types, a tick either
leaves `delay` alone, or replaces a positive `delay` by `delay - 1`, or (when
`delay = 0`) replaces it by `period - 1` for a positive `period`; a dispatcher
pass with quiet callbacks either leaves `runme` alone, or replaces a positive
`runme` by `runme - 1`, or empties a one-shot slot whose `runme` was positive.
No subtraction is applied to `0`, so none wraps to the largest value. -/
theorem no_counter_underflow (R : Nat) (s : Sched) (j : Nat) (hj : j < SCH_MAX_TASKS s)
    (hr : inRange R (rd s j)) :
    ((rd (ISR R s) j).delay = (rd s j).delay ∨
        (0 < (rd s j).delay ∧ (rd (ISR R s) j).delay + 1 = (rd s j).delay) ∨
        ((rd s j).delay = 0 ∧ 0 < (rd s j).period ∧
          (rd (ISR R s) j).delay + 1 = (rd s j).period)) ∧
      ((rd (sch_dispatch_tasks R quiet s).1 j).runme = (rd s j).runme ∨
        (0 < (rd s j).runme ∧
          (rd (sch_dispatch_tasks R quiet s).1 j).runme + 1 = (rd s j).runme) ∨
        (0 < (rd s j).runme ∧ (rd s j).period = 0 ∧
          rd (sch_dispatch_tasks R quiet s).1 j = ⟨0, 0, 0, 0⟩)) := by
  rw [rd_ISR R s j hj, rd_dispatch R s j hj]
  generalize rd s j = t at hr
  obtain ⟨p, d, q, r⟩ := t
  obtain ⟨hd, hq, hr⟩ := hr
  simp only at hd hq hr
  have hdec : ∀ x, 0 < x → x < UINT_MOD → (x + UINT_MOD - 1) % UINT_MOD + 1 = x := by
    intro x h1 h2
    simp only [UINT_MOD] at h2 ⊢
    omega
  have hrun : 0 < r → (r + R - 1) % R + 1 = r := by
    intro h1
    have h5 : r + R - 1 = (r - 1) + R := by omega
    rw [h5, Nat.add_mod_right, Nat.mod_eq_of_lt (by omega)]
    omega
  refine ⟨?_, ?_⟩
  · unfold tickSlot
    simp only
    split_ifs with h1 h2 h3
    · right; right
      exact ⟨h2, Nat.pos_of_ne_zero h3, hdec q (Nat.pos_of_ne_zero h3) hq⟩
    · left; rfl
    · right; left
      exact ⟨Nat.pos_of_ne_zero h2, hdec d (Nat.pos_of_ne_zero h2) hd⟩
    · left; rfl
  · unfold dispSlot
    simp only
    split_ifs with h1 h2
    · right; right
      exact ⟨h1.1, h2, rfl⟩
    · right; left
      exact ⟨h1.1, hrun h1.1⟩
    · left; rfl

theorem no_counter_underflow_witness :
    ((rd (ISR 256 (image [⟨5, 0, 4, 2⟩, ⟨7, 3, 0, 1⟩])) 0).delay =
          (rd (image [⟨5, 0, 4, 2⟩, ⟨7, 3, 0, 1⟩]) 0).delay ∨
        (0 < (rd (image [⟨5, 0, 4, 2⟩, ⟨7, 3, 0, 1⟩]) 0).delay ∧
          (rd (ISR 256 (image [⟨5, 0, 4, 2⟩, ⟨7, 3, 0, 1⟩])) 0).delay + 1 =
            (rd (image [⟨5, 0, 4, 2⟩, ⟨7, 3, 0, 1⟩]) 0).delay) ∨
        ((rd (image [⟨5, 0, 4, 2⟩, ⟨7, 3, 0, 1⟩]) 0).delay = 0 ∧
          0 < (rd (image [⟨5, 0, 4, 2⟩, ⟨7, 3, 0, 1⟩]) 0).period ∧
          (rd (ISR 256 (image [⟨5, 0, 4, 2⟩, ⟨7, 3, 0, 1⟩])) 0).delay + 1 =
            (rd (image [⟨5, 0, 4, 2⟩, ⟨7, 3, 0, 1⟩]) 0).period)) ∧
      ((rd (sch_dispatch_tasks 256 quiet (image [⟨5, 0, 4, 2⟩, ⟨7, 3, 0, 1⟩])).1 0).runme =
          (rd (image [⟨5, 0, 4, 2⟩, ⟨7, 3, 0, 1⟩]) 0).runme ∨
        (0 < (rd (image [⟨5, 0, 4, 2⟩, ⟨7, 3, 0, 1⟩]) 0).runme ∧
          (rd (sch_dispatch_tasks 256 quiet (image [⟨5, 0, 4, 2⟩, ⟨7, 3, 0, 1⟩])).1 0).runme + 1 =
            (rd (image [⟨5, 0, 4, 2⟩, ⟨7, 3, 0, 1⟩]) 0).runme) ∨
        (0 < (rd (image [⟨5, 0, 4, 2⟩, ⟨7, 3, 0, 1⟩]) 0).runme ∧
          (rd (image [⟨5, 0, 4, 2⟩, ⟨7, 3, 0, 1⟩]) 0).period = 0 ∧
          rd (sch_dispatch_tasks 256 quiet (image [⟨5, 0, 4, 2⟩, ⟨7, 3, 0, 1⟩])).1 0 =
            ⟨0, 0, 0, 0⟩)) :=
  no_counter_underflow 256 (image [⟨5, 0, 4, 2⟩, ⟨7, 3, 0, 1⟩]) 0 (by decide) (by decide)

/-! ## The reads of the scan of `sch_add_task` -/

/-- C18 on a full table of capacity 2: the scan of `sch_add_task`, with its
reads bounds-checked, ends in the read of `sch_tasks_g[2]`, one slot past the
table; followed with the read unchecked, the loop is left with `index = 2`
whatever that read yields. -/
theorem add_scan_reads_past_full_table :
    SCH_MAX_TASKS (image [⟨5, 0, 0, 0⟩, ⟨6, 1, 2, 3⟩]) = 2 ∧
      addScanChecked (image [⟨5, 0, 0, 0⟩, ⟨6, 1, 2, 3⟩]) 256 0 = ScanOutcome.outOfBounds 2 ∧
      addScan (image [⟨5, 0, 0, 0⟩, ⟨6, 1, 2, 3⟩]) 256 0 = some 2 ∧
      addScan ⟨[⟨5, 0, 0, 0⟩, ⟨6, 1, 2, 3⟩], fun _ => ⟨9, 9, 9, 9⟩⟩ 256 0 = some 2 := by
  decide

end Scheduler

namespace Modules

theorem parity_snoc (log : List Call) (c0 : Call)
    (hpar : ∀ k c, log[k]? = some c → (c.isDown = true ↔ k % 2 = 0))
    (hnew : c0.isDown = true ↔ log.length % 2 = 0) :
    ∀ k c, (log ++ [c0])[k]? = some c → (c.isDown = true ↔ k % 2 = 0) := by
  intro k c hk
  rcases Nat.lt_trichotomy k log.length with h | h | h
  · rw [List.getElem?_append_left h] at hk
    exact hpar k c hk
  · subst h
    rw [List.getElem?_concat_length] at hk
    simp only [Option.some.injEq] at hk
    subst hk
    exact hnew
  · rw [List.getElem?_eq_none (by simp; omega)] at hk
    exact absurd hk (by simp)

theorem inv_step (b : Bool) (x : ℚ) (st : Int × List Call) (h : Inv st) :
    Inv ((if b = true then
            if st.1 = 1 then ((0 : Int), [Call.roll_down x]) else (st.1, [])
          else
            if st.1 = 0 then ((1 : Int), [Call.roll_up x]) else (st.1, [])).1,
         st.2 ++ (if b = true then
            if st.1 = 1 then ((0 : Int), [Call.roll_down x]) else (st.1, [])
          else
            if st.1 = 0 then ((1 : Int), [Call.roll_up x]) else (st.1, [])).2) := by
  obtain ⟨hst, hpar⟩ := h
  split_ifs with h1 h2 h3
  · -- roll_down
    have hlen : st.2.length % 2 = 0 := by
      rcases hst with ⟨_, h⟩ | ⟨h, _⟩
      · exact h
      · rw [h] at h2
        exact absurd h2 (by decide)
    refine ⟨Or.inr ⟨rfl, ?_⟩, parity_snoc st.2 _ hpar (by simp [Call.isDown, hlen])⟩
    simp only [List.length_append, List.length_singleton]
    omega
  · simpa using ⟨hst, hpar⟩
  · -- roll_up
    have hlen : st.2.length % 2 = 1 := by
      rcases hst with ⟨h, _⟩ | ⟨_, h⟩
      · rw [h] at h3
        exact absurd h3 (by decide)
      · exact h
    refine ⟨Or.inl ⟨rfl, ?_⟩, parity_snoc st.2 _ hpar (by simp [Call.isDown, hlen])⟩
    simp only [List.length_append, List.length_singleton]
    omega
  · simpa using ⟨hst, hpar⟩

theorem scans_inv (ops : List Scan) (st : Int × List Call) (h : Inv st) :
    Inv (scans ops st) := by
  induction ops generalizing st with
  | nil => exact h
  | cons op ops ih =>
    cases op with
    | light avg => exact ih _ (inv_step (avg.above 50) 2 st h)
    | temperature avg => exact ih _ (inv_step (avg.above 25) (1 / 10) st h)

theorem inv_last (st : Int × List Call) (h : Inv st) :
    (st.1 = 0 ∨ st.1 = 1) ∧
      (st.1 = 0 ↔ ∃ c, st.2.getLast? = some c ∧ c.isDown = true) ∧
      (∀ k a b, st.2[k]? = some a → st.2[k + 1]? = some b → a.isDown ≠ b.isDown) := by
  obtain ⟨hst, hpar⟩ := h
  refine ⟨?_, ?_, ?_⟩
  · rcases hst with ⟨h, _⟩ | ⟨h, _⟩
    · exact Or.inr h
    · exact Or.inl h
  · rw [List.getLast?_eq_getElem?]
    constructor
    · intro h0
      have hlen : st.2.length % 2 = 1 := by
        rcases hst with ⟨h, _⟩ | ⟨_, h⟩
        · rw [h] at h0
          exact absurd h0 (by decide)
        · exact h
      have hlt : st.2.length - 1 < st.2.length := by omega
      refine ⟨st.2[st.2.length - 1], List.getElem?_eq_getElem hlt, ?_⟩
      rw [hpar _ _ (List.getElem?_eq_getElem hlt)]
      omega
    · rintro ⟨c, hc, hdown⟩
      have hlt : st.2.length - 1 < st.2.length := by
        by_contra hn
        rw [List.getElem?_eq_none (Nat.le_of_not_lt hn)] at hc
        exact absurd hc (by simp)
      have hk := (hpar _ c hc).mp hdown
      rcases hst with ⟨_, h⟩ | ⟨h, _⟩
      · omega
      · exact h
  · intro k a b ha hb hab
    have h1 := hpar k a ha
    have h2 := hpar (k + 1) b hb
    rw [hab] at h1
    have h3 : k % 2 = 0 ↔ (k + 1) % 2 = 0 := h1.symm.trans h2
    omega

/-- C20: whatever scans of light and temperature run, with whatever averages,
starting from `status = 1`: the actuator calls alternate, the calls at even
positions (the first included) being `roll_down` and the others `roll_up`, so
two consecutive calls are never the same; `status` is `0` or `1`, and is `0`
exactly when the last call so far was a `roll_down`.  A scan calls `roll_down`
exactly when its average is above its threshold (50 for light, 25 for
temperature) and `status = 1`, and `roll_up` exactly when the average is not
above the threshold and `status = 0`. -/
theorem shutter_calls_alternate (ops : List Scan) :
    (∀ k c, (scans ops (status0, [])).2[k]? = some c → (c.isDown = true ↔ k % 2 = 0)) ∧
      (∀ k a b, (scans ops (status0, [])).2[k]? = some a →
        (scans ops (status0, [])).2[k + 1]? = some b → a.isDown ≠ b.isDown) ∧
      ((scans ops (status0, [])).1 = 0 ∨ (scans ops (status0, [])).1 = 1) ∧
      ((scans ops (status0, [])).1 = 0 ↔
        ∃ c, (scans ops (status0, [])).2.getLast? = some c ∧ c.isDown = true) ∧
      (∀ avg status,
        ((∃ x, Call.roll_down x ∈ (run_light_scan avg status).2) ↔
          (avg.above 50 = true ∧ status = 1)) ∧
        ((∃ x, Call.roll_up x ∈ (run_light_scan avg status).2) ↔
          (avg.above 50 = false ∧ status = 0)) ∧
        ((∃ x, Call.roll_down x ∈ (run_temperature_scan avg status).2) ↔
          (avg.above 25 = true ∧ status = 1)) ∧
        ((∃ x, Call.roll_up x ∈ (run_temperature_scan avg status).2) ↔
          (avg.above 25 = false ∧ status = 0))) := by
  have h0 : Inv (status0, []) := ⟨Or.inl ⟨rfl, rfl⟩, by simp⟩
  have h := scans_inv ops _ h0
  have hl := inv_last _ h
  refine ⟨h.2, hl.2.2, hl.1, hl.2.1, ?_⟩
  intro avg status
  unfold run_light_scan run_temperature_scan
  refine ⟨?_, ?_, ?_, ?_⟩ <;>
    (cases avg.above 50 <;> cases avg.above 25 <;>
      by_cases h1 : status = 1 <;> by_cases h2 : status = 0 <;> simp [h1, h2])

end Modules
